import Mathlib

/-!
The program go-history: the path extractor and the selection state machine.

A shallow embedding of `main.go`.

Go strings are modelled as lists of characters (`Str`).  The history text is
read as UTF-8, and the only byte offsets the program slices at (`line[3:]`
after the prefix `cd `, `cdPath[1:]` after `~`) fall right behind ASCII
characters, so slicing by bytes and dropping characters agree.

The standard-library functions the program calls (`strings.ToLower`,
`strings.HasPrefix`, `strings.TrimSpace`, `filepath.Clean`, `filepath.Join`,
`filepath.IsAbs`, `filepath.Abs`) are modelled with their Unix behaviour
(separator `/`, no volume names).  `os.Getwd`, which `filepath.Abs` consults
for a relative path, is a parameter `getwd : Option Str` (`none` is the error
return).
-/

set_option autoImplicit false

namespace GoHistory

/-- A Go string, as the list of its characters. -/
abbrev Str := List Char

/-! ## The `strings` package -/

/-- Lower-casing of one character, as `strings.ToLower` does it on the ASCII
letters.  The program only asks whether the lowered line starts with `cd `,
and the only characters that lower to `c`, `d` or a blank are the ASCII ones,
so this is all of `unicode.ToLower` that the program can observe. -/
def toLowerChar (c : Char) : Char :=
  if 'A'.toNat ≤ c.toNat ∧ c.toNat ≤ 'Z'.toNat then Char.ofNat (c.toNat + 32) else c

/-- The function `strings.ToLower`. -/
def ToLower (s : Str) : Str := s.map toLowerChar

/-- The function `strings.HasPrefix`. -/
def HasPrefix : Str → Str → Bool
  | _, [] => true
  | [], _ :: _ => false
  | c :: s, d :: p => if c = d then HasPrefix s p else false

/-- White space as `unicode.IsSpace` defines it. -/
def isSpace (c : Char) : Bool :=
  let n := c.toNat
  (9 ≤ n ∧ n ≤ 13) ∨ n = 32 ∨ n = 0x85 ∨ n = 0xA0 ∨ n = 0x1680 ∨
    (0x2000 ≤ n ∧ n ≤ 0x200A) ∨ n = 0x2028 ∨ n = 0x2029 ∨ n = 0x202F ∨
    n = 0x205F ∨ n = 0x3000

/-- The function `strings.TrimSpace`: white space is removed at both ends. -/
def TrimSpace (s : Str) : Str :=
  (((s.dropWhile isSpace).reverse).dropWhile isSpace).reverse

/-! ## The `path/filepath` package (Unix) -/

/-- The path elements of a string: the pieces between separators `/`. -/
def splitSep : Str → List Str
  | [] => [[]]
  | c :: cs =>
    if c = '/' then [] :: splitSep cs
    else
      match splitSep cs with
      | [] => [[c]]
      | e :: es => (c :: e) :: es

/-- Path elements written out with one separator between neighbours. -/
def joinSep : List Str → Str
  | [] => []
  | [e] => e
  | e :: es => e ++ '/' :: joinSep es

/-- The output buffer of `filepath.Clean`, by path elements: `out` holds the
elements written so far, the last one first, and `dotdot` is the number of
elements at which a `..` must stop backtracking (the leading `../..` run of a
path that is not rooted). -/
structure CleanBuf where
  out : List Str
  dotdot : Nat
deriving DecidableEq, Repr

/-- One round of the loop of `filepath.Clean`, on the next path element:
an empty element and `.` are dropped; `..` removes the last element when
there is one to backtrack over, is appended when the path is not rooted, and
is dropped at the root; any other element is appended. -/
def cleanStep (rooted : Bool) (b : CleanBuf) (e : Str) : CleanBuf :=
  if e = [] then b
  else if e = ['.'] then b
  else if e = ['.', '.'] then
    if b.out.length > b.dotdot then { b with out := b.out.tail }
    else if !rooted then { out := e :: b.out, dotdot := b.out.length + 1 }
    else b
  else { b with out := e :: b.out }

/-- The function `filepath.Clean`. -/
def Clean (path : Str) : Str :=
  match path with
  | [] => ['.']
  | c :: _ =>
    let rooted : Bool := c = '/'
    let b := (splitSep path).foldl (cleanStep rooted) ⟨[], 0⟩
    let body := joinSep b.out.reverse
    if rooted then '/' :: body
    else if body = [] then ['.'] else body

/-- The function `filepath.Join` for two elements: empty elements are
ignored, the rest is joined with a separator and cleaned. -/
def Join (a b : Str) : Str :=
  if a ≠ [] then Clean (a ++ '/' :: b)
  else if b ≠ [] then Clean b
  else []

/-- The function `filepath.IsAbs`. -/
def IsAbs (path : Str) : Bool := HasPrefix path ['/']

/-- The function `filepath.Abs`; `getwd` is what `os.Getwd` returns, `none`
for its error. -/
def Abs (getwd : Option Str) (path : Str) : Option Str :=
  if IsAbs path then some (Clean path)
  else
    match getwd with
    | none => none
    | some wd => some (Join wd path)

/-! ## The reverse scan of `main` -/

/-- The variables the scan of `main` updates: the key set of the map
`uniquePaths` (kept free of repetitions, so that its length is `len` of the
map), the slice `orderedPaths`, and the simulated working directory `cwd`. -/
structure Scan where
  uniquePaths : List Str
  orderedPaths : List Str
  cwd : Str
deriving DecidableEq, Repr

/-- The closure `addPath` of `main`: a path that is not yet a key of
`uniquePaths` is entered there and appended to `orderedPaths`. -/
def addPath (st : Scan) (path : Str) : Scan :=
  if path ∈ st.uniquePaths then st
  else { st with uniquePaths := path :: st.uniquePaths,
                 orderedPaths := st.orderedPaths ++ [path] }

/-- The test of line 138: the lowered line starts with `cd `. -/
def isCdLine (line : Str) : Bool := HasPrefix (ToLower line) ['c', 'd', ' ']

/-- Lines 140 to 151 of `main`: the target `cdPath` is joined to the home
directory (leading `~`), taken as it is (absolute) or joined to the simulated
working directory, then cleaned and made absolute.  The result is `none` when
`filepath.Abs` returns an error. -/
def resolvePath (homeDir cwd : Str) (getwd : Option Str) (cdPath : Str) : Option Str :=
  let newPath :=
    if HasPrefix cdPath ['~'] then Join homeDir (cdPath.drop 1)
    else if IsAbs cdPath then cdPath
    else Join cwd cdPath
  Abs getwd (Clean newPath)

/-- The body of the loop of lines 131 to 160, for one line. -/
def loopBody (homeDir : Str) (getwd : Option Str) (st : Scan) (line : Str) : Scan :=
  if st.uniquePaths.length > 10 then st
  else if isCdLine line then
    let cdPath := TrimSpace (line.drop 3)
    match resolvePath homeDir st.cwd getwd cdPath with
    | none => st
    | some newPath => { addPath st newPath with cwd := newPath }
  else st

/-- The loop of lines 131 to 160: the lines are visited from the last index
down to index 0, starting with an empty map, an empty slice and the working
directory of the process. -/
def scanLines (homeDir cwd : Str) (getwd : Option Str) (lines : List Str) : Scan :=
  lines.reverse.foldl (loopBody homeDir getwd) { uniquePaths := [], orderedPaths := [], cwd := cwd }

/-- The slice `orderedPaths` that `main` hands to `initialModel`. -/
def orderedPaths (homeDir cwd : Str) (getwd : Option Str) (lines : List Str) : List Str :=
  (scanLines homeDir cwd getwd lines).orderedPaths

/-! ## The candidate list as the specification words it -/

/-- The resolved targets of the directory-change lines of `ls`, in the order
of `ls`: every matching line is resolved against the simulated working
directory, which then becomes the resolved path; other lines and lines whose
resolution fails are passed over. -/
def resolvedTargets (homeDir : Str) (getwd : Option Str) : Str → List Str → List Str
  | _, [] => []
  | cwd, line :: rest =>
    if isCdLine line then
      match resolvePath homeDir cwd getwd (TrimSpace (line.drop 3)) with
      | none => resolvedTargets homeDir getwd cwd rest
      | some p => p :: resolvedTargets homeDir getwd p rest
    else resolvedTargets homeDir getwd cwd rest

/-- The elements of a list that are not in `seen` and did not occur before,
in their order: every value is kept at its first occurrence only. -/
def firstOccurrencesFrom : List Str → List Str → List Str
  | _, [] => []
  | seen, t :: ts =>
    if t ∈ seen then firstOccurrencesFrom seen ts
    else t :: firstOccurrencesFrom (t :: seen) ts

/-- Every value of a list kept at its first occurrence only. -/
def firstOccurrences (ts : List Str) : List Str := firstOccurrencesFrom [] ts

/-! ## The selection state machine -/

/-- A message of the terminal library: a key press, with the name that
`KeyMsg.String` gives it, or any other message. -/
inductive Msg where
  | key (name : String)
  | other
deriving DecidableEq, Repr

/-- The command `Update` returns: `nil` or `tea.Quit`. -/
inductive Cmd where
  | nil
  | quit
deriving DecidableEq, Repr

/-- The struct `model`. -/
structure model where
  choices : List Str
  cursor : Int
  selected : Str
deriving DecidableEq, Repr

/-- The function `initialModel`: cursor and selection have their zero values. -/
def initialModel (paths : List Str) : model :=
  { choices := paths, cursor := 0, selected := [] }

/-- The method `Update`.  The result is `none` when the index expression
`m.choices[m.cursor]` is out of range and the program panics. -/
def Update (m : model) (msg : Msg) : Option (model × Cmd) :=
  match msg with
  | Msg.key name =>
    if name = "ctrl+c" ∨ name = "q" then some (m, Cmd.quit)
    else if name = "up" ∨ name = "k" then
      if m.cursor > 0 then some ({ m with cursor := m.cursor - 1 }, Cmd.nil)
      else some (m, Cmd.nil)
    else if name = "down" ∨ name = "j" then
      if m.cursor < (m.choices.length : Int) - 1 then
        some ({ m with cursor := m.cursor + 1 }, Cmd.nil)
      else some (m, Cmd.nil)
    else if name = "enter" then
      if 0 ≤ m.cursor then
        match m.choices[m.cursor.toNat]? with
        | some choice => some ({ m with selected := choice }, Cmd.quit)
        | none => none
      else none
    else some (m, Cmd.nil)
  | Msg.other => some (m, Cmd.nil)

/-- The models a sequence of messages leads through: `Update` is applied to
each message in turn; `none` when one of the calls panics. -/
def runUpdates : model → List Msg → Option model
  | m, [] => some m
  | m, msg :: rest =>
    match Update m msg with
    | none => none
    | some (m1, _) => runUpdates m1 rest

/-- What the scan keeps true of its variables: `orderedPaths` has no
repetition, it lists exactly the keys of `uniquePaths`, both have the same
number of entries, and that number is at most 11. -/
def ScanInv (st : Scan) : Prop :=
  st.orderedPaths.Nodup ∧ (∀ p, p ∈ st.uniquePaths ↔ p ∈ st.orderedPaths) ∧
    st.uniquePaths.length = st.orderedPaths.length ∧ st.orderedPaths.length ≤ 11

/-- History lines `cd /d1`, ..., `cd /d11`: eleven different targets. -/
def elevenLines : List Str :=
  ["cd /d1".toList, "cd /d2".toList, "cd /d3".toList, "cd /d4".toList, "cd /d5".toList,
   "cd /d6".toList, "cd /d7".toList, "cd /d8".toList, "cd /d9".toList, "cd /d10".toList,
   "cd /d11".toList]

/-- The four spellings of the prefix `cd ` before a target text `t`. -/
def cdVariants (t : Str) : List Str :=
  [('c' :: 'd' :: ' ' :: t), ('C' :: 'd' :: ' ' :: t), ('c' :: 'D' :: ' ' :: t),
    ('C' :: 'D' :: ' ' :: t)]

/-- The cursor of a model is an index into its choices. -/
def CursorOk (m : model) : Prop := 0 ≤ m.cursor ∧ m.cursor < (m.choices.length : Int)

/-- The history `cd /a`, `cd ../b`, oldest line first. -/
def historyAB : List Str := ["cd /a".toList, "cd ../b".toList]

/-- The element `..` of a path. -/
def dotdotElem : Str := ['.', '.']

/-- What the loop of `filepath.Clean` keeps true of its buffer: every element
written is a name (not empty, not `.`, without separator), the elements `..`
are the first `dotdot` ones written, and a rooted path has none of them. -/
def BufOk (rooted : Bool) (b : CleanBuf) : Prop :=
  (∀ e ∈ b.out, e ≠ [] ∧ e ≠ ['.'] ∧ '/' ∉ e) ∧
    (∃ names : List Str, b.out = names ++ List.replicate b.dotdot dotdotElem ∧
      dotdotElem ∉ names) ∧
    (rooted = true → b.dotdot = 0)

/-! ## The method `View` -/

/-- The first line that `View` writes. -/
def viewHeader : Str := "Which path do you want to select?\n\n".toList

/-- The help text that `View` writes last. -/
def viewHelp : Str := "\nPress enter to select, q to quit.\n".toList

/-- The call `fmt.Sprintf("%s %s\n", cursor, choice)`: both strings as they
are, a blank between them and a line break after them. -/
def sprintfLine (cursor choice : Str) : Str := cursor ++ ' ' :: choice ++ ['\n']

/-- The loop of `View` from index `i` on: for each choice the variable
`cursor` is `>` when `m.cursor == i` and a blank otherwise, and the formatted
line is appended to `s`. -/
def viewLoop (mcursor : Int) : Nat → List Str → Str → Str
  | _, [], s => s
  | i, choice :: rest, s =>
    let cursor : Str := if mcursor = (i : Int) then ['>'] else [' ']
    viewLoop mcursor (i + 1) rest (s ++ sprintfLine cursor choice)

/-- The method `View`. -/
def View (m : model) : Str :=
  viewLoop m.cursor 0 m.choices viewHeader ++ viewHelp

/-- The line the rendering contract asks for at index `i`: `> ` and the path
at the cursor index, two blanks and the path elsewhere, and a line break. -/
def candidateLine (mcursor : Int) (i : Nat) (choice : Str) : Str :=
  (if mcursor = (i : Int) then ['>', ' '] else [' ', ' ']) ++ choice ++ ['\n']

/-- The lines of the rendering contract for the choices from index `i` on. -/
def candidateLines (mcursor : Int) : Nat → List Str → List Str
  | _, [] => []
  | i, choice :: rest => candidateLine mcursor i choice :: candidateLines mcursor (i + 1) rest

/-- Lines written one after the other. -/
def concatLines : List Str → Str
  | [] => []
  | l :: ls => l ++ concatLines ls

/-! ## The end of `main` -/

/-- What lines 169 to 185 of `main` hand to the outside: the text set as
standard input of the command `pbcopy`, the text printed on standard output,
and the lines written to the log. -/
structure TailOutput where
  pbcopyStdin : Str
  printed : Str
  logged : List Str
deriving DecidableEq, Repr

/-- Lines 169 to 185 of `main`, for the field `selected` of the final model;
`pbcopyFails` says whether `cmd.Run` returns an error. -/
def mainTail (selectedPath : Str) (pbcopyFails : Bool) : TailOutput :=
  let cmdText : Str := "cd ".toList ++ selectedPath
  if pbcopyFails then
    { pbcopyStdin := cmdText, printed := [],
      logged := ["If you install pbcopy you can just paste".toList, cmdText] }
  else
    { pbcopyStdin := cmdText,
      printed := "The command 'cd ".toList ++ selectedPath ++
        "' has been copied to the clipboard.\n".toList,
      logged := [] }

/-! ## The scan with `break` in place of `continue` -/

/-- Lines 137 to 159 of `main`: the loop body behind the cap check. -/
def lineBody (homeDir : Str) (getwd : Option Str) (st : Scan) (line : Str) : Scan :=
  if isCdLine line then
    let cdPath := TrimSpace (line.drop 3)
    match resolvePath homeDir st.cwd getwd cdPath with
    | none => st
    | some newPath => { addPath st newPath with cwd := newPath }
  else st

/-- The loop of lines 131 to 160 with `break` written for the `continue` of
line 134, over the lines in the order of the visit: once more than 10 paths
are held the remaining lines are not visited. -/
def loopBreak (homeDir : Str) (getwd : Option Str) : Scan → List Str → Scan
  | st, [] => st
  | st, line :: rest =>
    if st.uniquePaths.length > 10 then st
    else loopBreak homeDir getwd (lineBody homeDir getwd st line) rest

/-- The candidate list of the variant with `break`. -/
def orderedPathsBreak (homeDir cwd : Str) (getwd : Option Str) (lines : List Str) : List Str :=
  (loopBreak homeDir getwd { uniquePaths := [], orderedPaths := [], cwd := cwd }
    lines.reverse).orderedPaths

/-! ## Keys and sample histories -/

/-- The message is the key `down` or `j`. -/
def isDownKey (msg : Msg) : Bool := msg = Msg.key "down" ∨ msg = Msg.key "j"

/-- The message is one of the keys `up`, `k`, `down`, `j`. -/
def isNavKey (msg : Msg) : Bool :=
  msg = Msg.key "up" ∨ msg = Msg.key "k" ∨ msg = Msg.key "down" ∨ msg = Msg.key "j"

/-- The message is one of the keys that `Update` acts on. -/
def isHandledKey (msg : Msg) : Bool :=
  msg = Msg.key "ctrl+c" ∨ msg = Msg.key "q" ∨ msg = Msg.key "up" ∨ msg = Msg.key "k" ∨
    msg = Msg.key "down" ∨ msg = Msg.key "j" ∨ msg = Msg.key "enter"

/-- The history `cd x`, `cd /a`, `cd /b`, `cd /a`, oldest line first. -/
def historyXABA : List Str := ["cd x".toList, "cd /a".toList, "cd /b".toList, "cd /a".toList]

/-- The simulated working directory and all candidates of a scan state are
absolute paths. -/
def AbsInv (st : Scan) : Prop :=
  IsAbs st.cwd = true ∧ ∀ p ∈ st.orderedPaths, IsAbs p = true

/-! ## Path elements -/

theorem hasPrefix_singleton (p : Str) (c : Char) :
    HasPrefix p [c] = true ↔ ∃ t, p = c :: t := by
  cases p with
  | nil => simp [HasPrefix]
  | cons d t =>
    by_cases h : d = c
    · subst h; simp [HasPrefix]
    · simp only [HasPrefix, h, if_false, List.cons.injEq, exists_eq_right']
      simp

theorem isAbs_iff (p : Str) : IsAbs p = true ↔ ∃ t, p = '/' :: t :=
  hasPrefix_singleton p '/'

theorem splitSep_ne_nil (s : Str) : splitSep s ≠ [] := by
  cases s with
  | nil => simp [splitSep]
  | cons c cs =>
    unfold splitSep
    split_ifs
    · simp
    · split <;> simp

theorem splitSep_sep_cons (s : Str) : splitSep ('/' :: s) = [] :: splitSep s := by
  simp [splitSep]

theorem splitSep_cons_of_ne (c : Char) (s : Str) (hc : c ≠ '/') :
    ∃ e es, splitSep s = e :: es ∧ splitSep (c :: s) = (c :: e) :: es := by
  cases h : splitSep s with
  | nil => exact absurd h (splitSep_ne_nil s)
  | cons e es =>
    refine ⟨e, es, rfl, ?_⟩
    rw [splitSep, if_neg hc, h]

theorem splitSep_no_sep (s : Str) : ∀ e ∈ splitSep s, '/' ∉ e := by
  induction s with
  | nil => simp [splitSep]
  | cons c cs ih =>
    by_cases hc : c = '/'
    · subst hc
      rw [splitSep_sep_cons]
      intro e he
      rcases List.mem_cons.1 he with h | h
      · subst h; simp
      · exact ih e h
    · obtain ⟨e0, es, h1, h2⟩ := splitSep_cons_of_ne c cs hc
      rw [h2]
      rw [h1] at ih
      intro e he
      rcases List.mem_cons.1 he with h | h
      · subst h
        intro hmem
        rcases List.mem_cons.1 hmem with h3 | h3
        · exact hc h3.symm
        · exact ih e0 (List.mem_cons_self _ _) h3
      · exact ih e (List.mem_cons_of_mem _ h)

theorem splitSep_append_sep (u v : Str) :
    splitSep (u ++ '/' :: v) = splitSep u ++ splitSep v := by
  induction u with
  | nil => simp [splitSep]
  | cons c cs ih =>
    by_cases hc : c = '/'
    · subst hc
      rw [List.cons_append, splitSep_sep_cons, splitSep_sep_cons, ih, List.cons_append]
    · obtain ⟨e, es, h1, h2⟩ := splitSep_cons_of_ne c cs hc
      obtain ⟨e1, es1, h3, h4⟩ := splitSep_cons_of_ne c (cs ++ '/' :: v) hc
      rw [List.cons_append, h4, h2]
      rw [ih, h1, List.cons_append] at h3
      obtain ⟨h5, h6⟩ := List.cons.inj h3
      rw [List.cons_append, h5, h6]

theorem splitSep_of_no_sep (e : Str) (h : '/' ∉ e) : splitSep e = [e] := by
  induction e with
  | nil => rfl
  | cons c cs ih =>
    have hc : c ≠ '/' := fun hc => h (by rw [hc]; exact List.mem_cons_self _ _)
    have hcs : '/' ∉ cs := fun hm => h (List.mem_cons_of_mem _ hm)
    rw [splitSep, if_neg hc, ih hcs]

theorem joinSep_cons_of_ne_nil (e : Str) (es : List Str) (h : es ≠ []) :
    joinSep (e :: es) = e ++ '/' :: joinSep es := by
  cases es with
  | nil => exact absurd rfl h
  | cons e2 es2 => rfl

theorem splitSep_joinSep (l : List Str) (hne : l ≠ []) (h : ∀ e ∈ l, '/' ∉ e) :
    splitSep (joinSep l) = l := by
  induction l with
  | nil => exact absurd rfl hne
  | cons e es ih =>
    by_cases hes : es = []
    · subst hes
      exact splitSep_of_no_sep e (h e (List.mem_cons_self _ _))
    · rw [joinSep_cons_of_ne_nil e es hes, splitSep_append_sep,
        splitSep_of_no_sep e (h e (List.mem_cons_self _ _)),
        ih hes (fun x hx => h x (List.mem_cons_of_mem _ hx))]
      rfl

/-! ## The loop of `filepath.Clean` -/

theorem cleanStep_name (rooted : Bool) (b : CleanBuf) (e : Str)
    (h1 : e ≠ []) (h2 : e ≠ ['.']) (h3 : e ≠ dotdotElem) :
    cleanStep rooted b e = { b with out := e :: b.out } := by
  have h3b : e ≠ ['.', '.'] := h3
  simp [cleanStep, h1, h2, h3b]

theorem cleanStep_dotdot (rooted : Bool) (b : CleanBuf) :
    cleanStep rooted b dotdotElem =
      if b.out.length > b.dotdot then { b with out := b.out.tail }
      else if !rooted then { out := dotdotElem :: b.out, dotdot := b.out.length + 1 }
      else b := by
  simp [cleanStep, dotdotElem]

theorem bufOk_init (rooted : Bool) : BufOk rooted ⟨[], 0⟩ := by
  refine ⟨by simp, ⟨[], by simp⟩, fun _ => rfl⟩

theorem bufOk_cleanStep (rooted : Bool) (b : CleanBuf) (e : Str) (hb : BufOk rooted b)
    (he : '/' ∉ e) : BufOk rooted (cleanStep rooted b e) := by
  obtain ⟨hel, ⟨names, hout, hnames⟩, hroot⟩ := hb
  by_cases h1 : e = []
  · simpa [cleanStep, h1] using (⟨hel, ⟨names, hout, hnames⟩, hroot⟩ : BufOk rooted b)
  by_cases h2 : e = ['.']
  · simpa [cleanStep, h2] using (⟨hel, ⟨names, hout, hnames⟩, hroot⟩ : BufOk rooted b)
  by_cases h3 : e = dotdotElem
  · subst h3
    rw [cleanStep_dotdot]
    split_ifs with hlen hr
    · -- backtrack over the last name
      have hlen2 : names.length + b.dotdot > b.dotdot := by
        have := hlen
        rw [hout, List.length_append, List.length_replicate] at this
        exact this
      cases names with
      | nil => simp at hlen2
      | cons n ns =>
        refine ⟨?_, ⟨ns, ?_, ?_⟩, hroot⟩
        · intro x hx
          exact hel x (List.mem_of_mem_tail hx)
        · show b.out.tail = ns ++ List.replicate b.dotdot dotdotElem
          rw [hout]; rfl
        · exact fun hm => hnames (List.mem_cons_of_mem _ hm)
    · -- not rooted: the element is appended
      have hlen2 : names.length + b.dotdot ≤ b.dotdot := by
        have := hlen
        rw [hout, List.length_append, List.length_replicate] at this
        omega
      have hn : names = [] := List.eq_nil_of_length_eq_zero (by omega)
      subst hn
      have hout2 : b.out = List.replicate b.dotdot dotdotElem := by simpa using hout
      refine ⟨?_, ⟨[], ?_, by simp⟩, ?_⟩
      · intro x hx
        rcases List.mem_cons.1 hx with h | h
        · subst h; simp [dotdotElem]
        · exact hel x h
      · show dotdotElem :: b.out = [] ++ List.replicate (b.out.length + 1) dotdotElem
        rw [hout2, List.length_replicate]
        rfl
      · intro hr2
        simp [hr2] at hr
    · exact ⟨hel, ⟨names, hout, hnames⟩, hroot⟩
  · rw [cleanStep_name rooted b e h1 h2 h3]
    refine ⟨?_, ⟨e :: names, ?_, ?_⟩, hroot⟩
    · intro x hx
      rcases List.mem_cons.1 hx with h | h
      · subst h; exact ⟨h1, h2, he⟩
      · exact hel x h
    · show e :: b.out = e :: names ++ List.replicate b.dotdot dotdotElem
      rw [hout]; rfl
    · intro hm
      rcases List.mem_cons.1 hm with h | h
      · exact h3 h.symm
      · exact hnames h

theorem bufOk_foldl (rooted : Bool) (es : List Str) (hes : ∀ e ∈ es, '/' ∉ e) :
    ∀ b : CleanBuf, BufOk rooted b → BufOk rooted (es.foldl (cleanStep rooted) b) := by
  induction es with
  | nil => intro b hb; exact hb
  | cons e rest ih =>
    intro b hb
    exact ih (fun x hx => hes x (List.mem_cons_of_mem _ hx)) _
      (bufOk_cleanStep rooted b e hb (hes e (List.mem_cons_self _ _)))

theorem foldl_cleanStep_dotdots (k : Nat) :
    ∀ j : Nat, (List.replicate k dotdotElem).foldl (cleanStep false)
        ⟨List.replicate j dotdotElem, j⟩ =
      ⟨List.replicate (j + k) dotdotElem, j + k⟩ := by
  induction k with
  | zero => intro j; rfl
  | succ k ih =>
    intro j
    rw [List.replicate_succ, List.foldl_cons, cleanStep_dotdot]
    simp only [List.length_replicate, gt_iff_lt, lt_self_iff_false, if_false, Bool.not_false,
      if_true]
    have h := ih (j + 1)
    rw [List.replicate_succ] at h
    rw [h]
    have e1 : j + 1 + k = j + (k + 1) := by omega
    rw [e1]

theorem foldl_cleanStep_names (rooted : Bool) (ns : List Str)
    (hns : ∀ e ∈ ns, e ≠ [] ∧ e ≠ ['.'] ∧ e ≠ dotdotElem) :
    ∀ b : CleanBuf, ns.foldl (cleanStep rooted) b = { b with out := ns.reverse ++ b.out } := by
  induction ns with
  | nil => intro b; rfl
  | cons n rest ih =>
    intro b
    obtain ⟨h1, h2, h3⟩ := hns n (List.mem_cons_self _ _)
    rw [List.foldl_cons, cleanStep_name rooted b n h1 h2 h3,
      ih (fun x hx => hns x (List.mem_cons_of_mem _ hx))]
    simp

theorem foldl_cleanStep_out (rooted : Bool) (b : CleanBuf) (hb : BufOk rooted b) :
    b.out.reverse.foldl (cleanStep rooted) ⟨[], 0⟩ = b := by
  obtain ⟨hel, ⟨names, hout, hnames⟩, hroot⟩ := hb
  have hnm : ∀ e ∈ names.reverse, e ≠ [] ∧ e ≠ ['.'] ∧ e ≠ dotdotElem := by
    intro e he
    have hmem : e ∈ names := List.mem_reverse.1 he
    have hin : e ∈ b.out := by rw [hout]; exact List.mem_append_left _ hmem
    exact ⟨(hel e hin).1, (hel e hin).2.1, fun h => hnames (h ▸ hmem)⟩
  rw [hout, List.reverse_append, List.reverse_replicate, List.foldl_append]
  cases rooted with
  | true =>
    have hz : b.dotdot = 0 := hroot rfl
    rw [hz] at hout ⊢
    simp only [List.replicate_zero, List.foldl_nil]
    rw [foldl_cleanStep_names true names.reverse hnm]
    cases b with
    | mk out dotdot =>
      simp only [List.reverse_reverse, List.append_nil, CleanBuf.mk.injEq]
      simp only at hout hz
      exact ⟨by simpa using hout.symm, hz.symm⟩
  | false =>
    have h0 := foldl_cleanStep_dotdots b.dotdot 0
    simp only [List.replicate_zero, Nat.zero_add] at h0
    rw [h0, foldl_cleanStep_names false names.reverse hnm]
    cases b with
    | mk out dotdot =>
      simp only [List.reverse_reverse, CleanBuf.mk.injEq]
      simp only at hout
      exact ⟨hout.symm, trivial⟩

/-! ## `filepath.Clean`, `filepath.Join`, `filepath.Abs` -/

theorem clean_rooted (t : Str) :
    Clean ('/' :: t) =
      '/' :: joinSep ((splitSep ('/' :: t)).foldl (cleanStep true) ⟨[], 0⟩).out.reverse := by
  simp [Clean]

theorem clean_unrooted (c : Char) (t : Str) (hc : c ≠ '/') :
    Clean (c :: t) =
      if joinSep ((splitSep (c :: t)).foldl (cleanStep false) ⟨[], 0⟩).out.reverse = [] then ['.']
      else joinSep ((splitSep (c :: t)).foldl (cleanStep false) ⟨[], 0⟩).out.reverse := by
  simp [Clean, hc]

/-- The model of `filepath.Clean` on the table of the library's own test
`TestClean` (Unix entries). -/
theorem clean_table :
    (Clean "abc".toList = "abc".toList ∧ Clean "abc/def".toList = "abc/def".toList ∧
      Clean ".".toList = ".".toList ∧ Clean "..".toList = "..".toList ∧
      Clean "../..".toList = "../..".toList ∧ Clean "../../abc".toList = "../../abc".toList ∧
      Clean "/abc".toList = "/abc".toList ∧ Clean "/".toList = "/".toList ∧
      Clean "".toList = ".".toList) ∧
    (Clean "abc/".toList = "abc".toList ∧ Clean "a/b/c/".toList = "a/b/c".toList ∧
      Clean "./".toList = ".".toList ∧ Clean "../".toList = "..".toList ∧
      Clean "../../".toList = "../..".toList ∧ Clean "/abc/".toList = "/abc".toList ∧
      Clean "abc//def//ghi".toList = "abc/def/ghi".toList ∧
      Clean "abc//".toList = "abc".toList ∧ Clean "//abc".toList = "/abc".toList) ∧
    (Clean "abc/./def".toList = "abc/def".toList ∧
      Clean "/./abc/def".toList = "/abc/def".toList ∧ Clean "abc/.".toList = "abc".toList ∧
      Clean "abc/def/ghi/../jkl".toList = "abc/def/jkl".toList ∧
      Clean "abc/def/../ghi/../jkl".toList = "abc/jkl".toList ∧
      Clean "abc/def/..".toList = "abc".toList ∧ Clean "abc/def/../..".toList = ".".toList ∧
      Clean "/abc/def/../..".toList = "/".toList ∧
      Clean "abc/def/../../..".toList = "..".toList ∧
      Clean "/abc/def/../../..".toList = "/".toList) ∧
    (Clean "abc/def/../../../ghi/jkl/../../../mno".toList = "../../mno".toList ∧
      Clean "/../abc".toList = "/abc".toList ∧ Clean "abc/./../def".toList = "def".toList ∧
      Clean "abc//./../def".toList = "def".toList ∧
      Clean "abc/../../././../def".toList = "../../def".toList) := by
  refine ⟨by decide, by decide, by decide, by decide⟩

theorem joinSep_head (l : List Str) (hne : l ≠ [])
    (h : ∀ e ∈ l, e ≠ [] ∧ '/' ∉ e) : ∃ c r, joinSep l = c :: r ∧ c ≠ '/' := by
  cases l with
  | nil => exact absurd rfl hne
  | cons e es =>
    obtain ⟨h1, h2⟩ := h e (List.mem_cons_self _ _)
    cases e with
    | nil => exact absurd rfl h1
    | cons c cs =>
      have hc : c ≠ '/' := fun hc => h2 (by rw [hc]; exact List.mem_cons_self _ _)
      cases es with
      | nil => exact ⟨c, cs, rfl, hc⟩
      | cons e2 es2 => exact ⟨c, cs ++ '/' :: joinSep (e2 :: es2), rfl, hc⟩

theorem bufOk_clean (rooted : Bool) (p : Str) :
    BufOk rooted ((splitSep p).foldl (cleanStep rooted) ⟨[], 0⟩) :=
  bufOk_foldl rooted (splitSep p) (splitSep_no_sep p) _ (bufOk_init rooted)

theorem clean_idem (p : Str) : Clean (Clean p) = Clean p := by
  cases p with
  | nil => decide
  | cons c t =>
    by_cases hc : c = '/'
    · subst hc
      have hb := bufOk_clean true ('/' :: t)
      rw [clean_rooted t]
      generalize (splitSep ('/' :: t)).foldl (cleanStep true) ⟨[], 0⟩ = b at hb
      rw [clean_rooted, splitSep_sep_cons]
      by_cases hout : b.out = []
      · have hz : b.dotdot = 0 := hb.2.2 rfl
        cases b with
        | mk out dotdot =>
          simp only at hout hz
          subst hout; subst hz
          rfl
      · have hsp : splitSep (joinSep b.out.reverse) = b.out.reverse :=
          splitSep_joinSep _ (by simpa using hout)
            (fun e he => (hb.1 e (List.mem_reverse.1 he)).2.2)
        rw [hsp, List.foldl_cons]
        have hstep : cleanStep true ⟨[], 0⟩ [] = ⟨[], 0⟩ := rfl
        rw [hstep, foldl_cleanStep_out true b hb]
    · have hb := bufOk_clean false (c :: t)
      rw [clean_unrooted c t hc]
      generalize (splitSep (c :: t)).foldl (cleanStep false) ⟨[], 0⟩ = b at hb
      split_ifs with hbody
      · decide
      · have hout : b.out.reverse ≠ [] := by
          intro h
          apply hbody
          rw [h]; rfl
        obtain ⟨c2, r, hj, hc2⟩ := joinSep_head b.out.reverse hout
          (fun e he => ⟨(hb.1 e (List.mem_reverse.1 he)).1, (hb.1 e (List.mem_reverse.1 he)).2.2⟩)
        have hsp : splitSep (joinSep b.out.reverse) = b.out.reverse :=
          splitSep_joinSep _ hout (fun e he => (hb.1 e (List.mem_reverse.1 he)).2.2)
        have hcl := clean_unrooted c2 r hc2
        rw [← hj, hsp, foldl_cleanStep_out false b hb, if_neg hbody] at hcl
        exact hcl

theorem isAbs_clean (p : Str) : IsAbs (Clean p) = IsAbs p := by
  cases p with
  | nil => decide
  | cons c t =>
    by_cases hc : c = '/'
    · subst hc
      rw [clean_rooted]
      simp [IsAbs, HasPrefix]
    · have hb := bufOk_clean false (c :: t)
      rw [clean_unrooted c t hc]
      generalize (splitSep (c :: t)).foldl (cleanStep false) ⟨[], 0⟩ = b at hb
      have hr : IsAbs (c :: t) = false := by simp [IsAbs, HasPrefix, hc]
      rw [hr]
      split_ifs with hbody
      · decide
      · have hout : b.out.reverse ≠ [] := by
          intro h
          apply hbody
          rw [h]; rfl
        obtain ⟨c2, r, hj, hc2⟩ := joinSep_head b.out.reverse hout
          (fun e he => ⟨(hb.1 e (List.mem_reverse.1 he)).1, (hb.1 e (List.mem_reverse.1 he)).2.2⟩)
        rw [hj]
        simp [IsAbs, HasPrefix, hc2]

theorem abs_clean_of_isAbs (getwd : Option Str) (p : Str) (h : IsAbs p = true) :
    Abs getwd (Clean p) = some (Clean p) := by
  simp [Abs, isAbs_clean, h, clean_idem]

theorem join_of_isAbs (a b : Str) (h : IsAbs a = true) :
    Join a b = Clean (a ++ '/' :: b) ∧ IsAbs (Join a b) = true := by
  obtain ⟨t, ht⟩ := (isAbs_iff a).1 h
  subst ht
  have hj : Join ('/' :: t) b = Clean (('/' :: t) ++ '/' :: b) := by simp [Join]
  refine ⟨hj, ?_⟩
  rw [hj, isAbs_clean]
  simp [IsAbs, HasPrefix]

theorem resolvePath_tilde (homeDir cwd : Str) (getwd : Option Str) (t : Str)
    (h : HasPrefix t ['~'] = true) :
    resolvePath homeDir cwd getwd t = Abs getwd (Clean (Join homeDir (t.drop 1))) := by
  simp [resolvePath, h]

theorem resolvePath_abs (homeDir cwd : Str) (getwd : Option Str) (t : Str)
    (h : IsAbs t = true) : resolvePath homeDir cwd getwd t = some (Clean t) := by
  obtain ⟨r, hr⟩ := (isAbs_iff t).1 h
  have hn : HasPrefix t ['~'] = false := by
    subst hr
    have hne : ¬ ('/' = '~') := by decide
    simp [HasPrefix, hne]
  simp only [resolvePath, hn, h, if_true, Bool.false_eq_true, if_false]
  exact abs_clean_of_isAbs getwd t h

theorem resolvePath_rel (homeDir cwd : Str) (getwd : Option Str) (t : Str)
    (h1 : HasPrefix t ['~'] = false) (h2 : IsAbs t = false) (hc : IsAbs cwd = true) :
    resolvePath homeDir cwd getwd t = some (Clean (cwd ++ '/' :: t)) := by
  obtain ⟨hj, hja⟩ := join_of_isAbs cwd t hc
  simp only [resolvePath, h1, h2, Bool.false_eq_true, if_false]
  rw [hj, clean_idem]
  have habs : IsAbs (cwd ++ '/' :: t) = true := by
    rw [← isAbs_clean, ← hj]; exact hja
  exact abs_clean_of_isAbs getwd _ habs

/-! ## The scan: invariants -/

theorem scanInv_init (cwd : Str) :
    ScanInv { uniquePaths := [], orderedPaths := [], cwd := cwd } := by
  simp [ScanInv]

theorem loopBody_capped (homeDir : Str) (getwd : Option Str) (st : Scan) (line : Str)
    (h : st.uniquePaths.length > 10) : loopBody homeDir getwd st line = st := by
  simp [loopBody, h]

theorem loopBody_other (homeDir : Str) (getwd : Option Str) (st : Scan) (line : Str)
    (h : isCdLine line = false) : loopBody homeDir getwd st line = st := by
  simp [loopBody, h]

theorem loopBody_failed (homeDir : Str) (getwd : Option Str) (st : Scan) (line : Str)
    (h : resolvePath homeDir st.cwd getwd (TrimSpace (line.drop 3)) = none) :
    loopBody homeDir getwd st line = st := by
  simp [loopBody, h]

theorem loopBody_seen (homeDir : Str) (getwd : Option Str) (st : Scan) (line p : Str)
    (hcap : ¬ st.uniquePaths.length > 10) (hcd : isCdLine line = true)
    (h : resolvePath homeDir st.cwd getwd (TrimSpace (line.drop 3)) = some p)
    (hin : p ∈ st.uniquePaths) :
    loopBody homeDir getwd st line = { st with cwd := p } := by
  simp [loopBody, hcap, hcd, h, addPath, hin]

theorem loopBody_fresh (homeDir : Str) (getwd : Option Str) (st : Scan) (line p : Str)
    (hcap : ¬ st.uniquePaths.length > 10) (hcd : isCdLine line = true)
    (h : resolvePath homeDir st.cwd getwd (TrimSpace (line.drop 3)) = some p)
    (hin : p ∉ st.uniquePaths) :
    loopBody homeDir getwd st line =
      { uniquePaths := p :: st.uniquePaths, orderedPaths := st.orderedPaths ++ [p], cwd := p } := by
  simp [loopBody, hcap, hcd, h, addPath, hin]

theorem scanInv_loopBody (homeDir : Str) (getwd : Option Str) (st : Scan) (line : Str)
    (h : ScanInv st) : ScanInv (loopBody homeDir getwd st line) := by
  by_cases hcap : st.uniquePaths.length > 10
  · rw [loopBody_capped homeDir getwd st line hcap]; exact h
  by_cases hcd : isCdLine line = true
  swap
  · rw [loopBody_other homeDir getwd st line (by simpa using hcd)]; exact h
  cases hres : resolvePath homeDir st.cwd getwd (TrimSpace (line.drop 3)) with
  | none => rw [loopBody_failed homeDir getwd st line hres]; exact h
  | some p =>
    obtain ⟨hnd, hmem, hlen, hle⟩ := h
    by_cases hin : p ∈ st.uniquePaths
    · rw [loopBody_seen homeDir getwd st line p hcap hcd hres hin]
      exact ⟨hnd, hmem, hlen, hle⟩
    · rw [loopBody_fresh homeDir getwd st line p hcap hcd hres hin]
      have hnot : p ∉ st.orderedPaths := fun hc => hin ((hmem p).2 hc)
      refine ⟨?_, ?_, ?_, ?_⟩
      · show (st.orderedPaths ++ [p]).Nodup
        rw [List.nodup_append]
        refine ⟨hnd, List.nodup_singleton _, ?_⟩
        intro a ha hb
        rw [List.mem_singleton] at hb
        subst hb
        exact hnot ha
      · intro q
        show q ∈ p :: st.uniquePaths ↔ q ∈ st.orderedPaths ++ [p]
        simp only [List.mem_cons, List.mem_append, List.mem_singleton]
        rw [hmem q]
        tauto
      · show (p :: st.uniquePaths).length = (st.orderedPaths ++ [p]).length
        simp [hlen]
      · show (st.orderedPaths ++ [p]).length ≤ 11
        simp only [List.length_append, List.length_singleton]
        omega

theorem scanInv_foldl (homeDir : Str) (getwd : Option Str) (ls : List Str) :
    ∀ st : Scan, ScanInv st → ScanInv (ls.foldl (loopBody homeDir getwd) st) := by
  induction ls with
  | nil => intro st h; exact h
  | cons line rest ih =>
    intro st h
    exact ih _ (scanInv_loopBody homeDir getwd st line h)

theorem scanInv_scanLines (homeDir cwd : Str) (getwd : Option Str) (lines : List Str) :
    ScanInv (scanLines homeDir cwd getwd lines) :=
  scanInv_foldl homeDir getwd lines.reverse _ (scanInv_init cwd)

/-- C1: for every list of history lines, every home directory and every
starting working directory (and whatever `os.Getwd` returns), the candidate
list `orderedPaths` built by the reverse scan has no two equal entries. -/
theorem orderedPaths_nodup (homeDir cwd : Str) (getwd : Option Str) (lines : List Str) :
    (orderedPaths homeDir cwd getwd lines).Nodup :=
  (scanInv_scanLines homeDir cwd getwd lines).1

/-- C3: for every list of history lines the reverse scan produces at most
11 candidates, the maximum count 10 plus one. -/
theorem orderedPaths_length_le (homeDir cwd : Str) (getwd : Option Str) (lines : List Str) :
    (orderedPaths homeDir cwd getwd lines).length ≤ 10 + 1 :=
  (scanInv_scanLines homeDir cwd getwd lines).2.2.2

/-- C4: on the history `cd /d1`, ..., `cd /d11` the scan returns 11
candidates, one more than the maximum of 10 that the data model and the
comment `just show 10 for now` give. -/
theorem orderedPaths_elevenLines :
    (orderedPaths "/home/u".toList "/start".toList none elevenLines).length = 11 ∧
      ¬ (orderedPaths "/home/u".toList "/start".toList none elevenLines).length ≤ 10 := by
  decide

/-! ## The scan: what it computes -/

theorem foldl_loopBody_capped (homeDir : Str) (getwd : Option Str) (ls : List Str) :
    ∀ st : Scan, st.uniquePaths.length > 10 → ls.foldl (loopBody homeDir getwd) st = st := by
  induction ls with
  | nil => intro st _; rfl
  | cons line rest ih =>
    intro st h
    rw [List.foldl_cons, loopBody_capped homeDir getwd st line h]
    exact ih st h

theorem foldl_loopBody_orderedPaths (homeDir : Str) (getwd : Option Str) (ls : List Str) :
    ∀ st : Scan, st.uniquePaths.length = st.orderedPaths.length → st.orderedPaths.length ≤ 11 →
      (ls.foldl (loopBody homeDir getwd) st).orderedPaths =
        (st.orderedPaths ++
          firstOccurrencesFrom st.uniquePaths (resolvedTargets homeDir getwd st.cwd ls)).take 11 := by
  induction ls with
  | nil =>
    intro st _ hle
    simp [resolvedTargets, firstOccurrencesFrom, List.take_of_length_le hle]
  | cons line rest ih =>
    intro st hlen hle
    rw [List.foldl_cons]
    by_cases hcap : st.uniquePaths.length > 10
    · rw [loopBody_capped homeDir getwd st line hcap,
        foldl_loopBody_capped homeDir getwd rest st hcap]
      have h11 : st.orderedPaths.length = 11 := by omega
      rw [List.take_append_of_le_length (by omega), List.take_of_length_le (by omega)]
    by_cases hcd : isCdLine line = true
    swap
    · have hcd2 : isCdLine line = false := by simpa using hcd
      rw [loopBody_other homeDir getwd st line hcd2, ih st hlen hle]
      simp [resolvedTargets, hcd2]
    cases hres : resolvePath homeDir st.cwd getwd (TrimSpace (line.drop 3)) with
    | none =>
      rw [loopBody_failed homeDir getwd st line hres, ih st hlen hle]
      simp [resolvedTargets, hcd, hres]
    | some p =>
      by_cases hin : p ∈ st.uniquePaths
      · rw [loopBody_seen homeDir getwd st line p hcap hcd hres hin, ih { st with cwd := p } hlen hle]
        simp [resolvedTargets, hcd, hres, firstOccurrencesFrom, hin]
      · rw [loopBody_fresh homeDir getwd st line p hcap hcd hres hin,
          ih _ (by simp [hlen]) (by simp only [List.length_append, List.length_singleton]; omega)]
        simp [resolvedTargets, hcd, hres, firstOccurrencesFrom, hin]

/-- C2: for every list of history lines the candidate list is the sequence
of resolved targets of the directory-change lines, read from the newest line
to the oldest, every path kept at its first occurrence only and in that order,
cut off after the 11 entries at which the cap check stops the scan; for the
history `cd /a`, `ls`, `cd ~/b`, `cd /a` with home `/home/u` and working
directory `/start` it is `/a`, `/home/u/b`. -/
theorem orderedPaths_eq_firstOccurrences :
    (∀ (homeDir cwd : Str) (getwd : Option Str) (lines : List Str),
      orderedPaths homeDir cwd getwd lines =
        (firstOccurrences (resolvedTargets homeDir getwd cwd lines.reverse)).take 11) ∧
    (∀ getwd : Option Str,
      orderedPaths "/home/u".toList "/start".toList getwd
          ["cd /a".toList, "ls".toList, "cd ~/b".toList, "cd /a".toList] =
        ["/a".toList, "/home/u/b".toList]) := by
  refine ⟨?_, ?_⟩
  · intro homeDir cwd getwd lines
    have h := foldl_loopBody_orderedPaths homeDir getwd lines.reverse
      { uniquePaths := [], orderedPaths := [], cwd := cwd } rfl (by simp)
    simpa [orderedPaths, scanLines, firstOccurrences] using h
  · intro getwd
    rfl

/-! ## Recognition of directory-change lines -/

theorem loopBody_congr (homeDir : Str) (getwd : Option Str) (st : Scan) (l1 l2 : Str)
    (hcd : isCdLine l1 = isCdLine l2) (hdrop : l1.drop 3 = l2.drop 3) :
    loopBody homeDir getwd st l1 = loopBody homeDir getwd st l2 := by
  simp only [loopBody, hcd, hdrop]

theorem scanLines_congr_line (homeDir cwd : Str) (getwd : Option Str) (pre post : List Str)
    (l1 l2 : Str) (hcd : isCdLine l1 = isCdLine l2) (hdrop : l1.drop 3 = l2.drop 3) :
    scanLines homeDir cwd getwd (pre ++ l1 :: post) =
      scanLines homeDir cwd getwd (pre ++ l2 :: post) := by
  simp only [scanLines, List.reverse_append, List.reverse_cons, List.foldl_append,
    List.foldl_cons, List.foldl_nil]
  rw [loopBody_congr homeDir getwd _ l1 l2 hcd hdrop]

theorem isCdLine_cdVariants (t l : Str) (h : l ∈ cdVariants t) :
    isCdLine l = true ∧ l.drop 3 = t := by
  simp only [cdVariants, List.mem_cons, List.mem_singleton, List.not_mem_nil, or_false] at h
  rcases h with h | h | h | h <;> subst h <;> refine ⟨?_, rfl⟩
  · show HasPrefix (ToLower ('c' :: 'd' :: ' ' :: t)) ['c', 'd', ' '] = true
    have e1 : toLowerChar 'c' = 'c' := by decide
    have e2 : toLowerChar 'd' = 'd' := by decide
    have e3 : toLowerChar ' ' = ' ' := by decide
    simp [ToLower, HasPrefix, e1, e2, e3]
  · show HasPrefix (ToLower ('C' :: 'd' :: ' ' :: t)) ['c', 'd', ' '] = true
    have e1 : toLowerChar 'C' = 'c' := by decide
    have e2 : toLowerChar 'd' = 'd' := by decide
    have e3 : toLowerChar ' ' = ' ' := by decide
    simp [ToLower, HasPrefix, e1, e2, e3]
  · show HasPrefix (ToLower ('c' :: 'D' :: ' ' :: t)) ['c', 'd', ' '] = true
    have e1 : toLowerChar 'c' = 'c' := by decide
    have e2 : toLowerChar 'D' = 'd' := by decide
    have e3 : toLowerChar ' ' = ' ' := by decide
    simp [ToLower, HasPrefix, e1, e2, e3]
  · show HasPrefix (ToLower ('C' :: 'D' :: ' ' :: t)) ['c', 'd', ' '] = true
    have e1 : toLowerChar 'C' = 'c' := by decide
    have e2 : toLowerChar 'D' = 'd' := by decide
    have e3 : toLowerChar ' ' = ' ' := by decide
    simp [ToLower, HasPrefix, e1, e2, e3]

/-- C8: the prefix `cd ` is recognised in any letter case: for every target
text `t`, each of the lines `cd t`, `Cd t`, `cD t`, `CD t` passes the test of
line 138, has the same target and so the same resolved path as `cd t`, takes
the scan from any state to the same state, and in any place of any history
gives the same candidate list; `CD /tmp` and `cd /tmp` both yield `/tmp`. -/
theorem cd_case_insensitive (t l : Str) (hl : l ∈ cdVariants t) :
    isCdLine l = true ∧
      (∀ (homeDir cwd : Str) (getwd : Option Str),
        resolvePath homeDir cwd getwd (TrimSpace (l.drop 3)) =
          resolvePath homeDir cwd getwd (TrimSpace (('c' :: 'd' :: ' ' :: t).drop 3))) ∧
      (∀ (homeDir : Str) (getwd : Option Str) (st : Scan),
        loopBody homeDir getwd st l = loopBody homeDir getwd st ('c' :: 'd' :: ' ' :: t)) ∧
      (∀ (homeDir cwd : Str) (getwd : Option Str) (pre post : List Str),
        orderedPaths homeDir cwd getwd (pre ++ l :: post) =
          orderedPaths homeDir cwd getwd (pre ++ ('c' :: 'd' :: ' ' :: t) :: post)) ∧
      (∀ (homeDir cwd : Str) (getwd : Option Str),
        orderedPaths homeDir cwd getwd ["CD /tmp".toList] = ["/tmp".toList] ∧
        orderedPaths homeDir cwd getwd ["cd /tmp".toList] = ["/tmp".toList]) := by
  obtain ⟨hcd, hdrop⟩ := isCdLine_cdVariants t l hl
  have hcd0 : isCdLine ('c' :: 'd' :: ' ' :: t) = true :=
    (isCdLine_cdVariants t _ (by simp [cdVariants])).1
  have hdrop0 : ('c' :: 'd' :: ' ' :: t).drop 3 = t := rfl
  refine ⟨hcd, ?_, ?_, ?_, ?_⟩
  · intro homeDir cwd getwd
    rw [hdrop, hdrop0]
  · intro homeDir getwd st
    exact loopBody_congr homeDir getwd st _ _ (hcd.trans hcd0.symm) (hdrop.trans hdrop0.symm)
  · intro homeDir cwd getwd pre post
    simp only [orderedPaths]
    rw [scanLines_congr_line homeDir cwd getwd pre post _ _ (hcd.trans hcd0.symm)
      (hdrop.trans hdrop0.symm)]
  · intro homeDir cwd getwd
    exact ⟨rfl, rfl⟩

/-- Witness of `cd_case_insensitive`, at the line `CD /tmp`. -/
theorem cd_case_insensitive_witness :
    "CD /tmp".toList ∈ cdVariants "/tmp".toList ∧ isCdLine "CD /tmp".toList = true ∧
      orderedPaths "/home/u".toList "/start".toList none ["cd /x".toList, "CD /tmp".toList] =
        orderedPaths "/home/u".toList "/start".toList none ["cd /x".toList, "cd /tmp".toList] :=
  ⟨by decide,
    (cd_case_insensitive "/tmp".toList "CD /tmp".toList (by decide)).1,
    (cd_case_insensitive "/tmp".toList "CD /tmp".toList (by decide)).2.2.2.1
      "/home/u".toList "/start".toList none ["cd /x".toList] []⟩

theorem foldl_loopBody_filter (homeDir : Str) (getwd : Option Str) (ls : List Str) :
    ∀ st : Scan, (ls.filter isCdLine).foldl (loopBody homeDir getwd) st =
      ls.foldl (loopBody homeDir getwd) st := by
  induction ls with
  | nil => intro st; rfl
  | cons line rest ih =>
    intro st
    cases hcd : isCdLine line with
    | true => simp only [List.filter_cons, hcd, if_true, List.foldl_cons]; exact ih _
    | false =>
      rw [List.filter_cons_of_neg (by simp [hcd]), List.foldl_cons,
        loopBody_other homeDir getwd st line hcd]
      exact ih st

/-- C9: a line that does not start, in any letter case, with `cd ` leaves
the simulated working directory and the candidates as they are, and deleting
all such lines from a history changes neither the candidate list nor the
final state of the scan; `ls -la` and `git commit -m "cd into trouble"` are
such lines. -/
theorem non_cd_lines_ignored (homeDir : Str) (getwd : Option Str) (st : Scan) (line : Str)
    (h : isCdLine line = false) :
    loopBody homeDir getwd st line = st ∧
      (∀ (homeDir2 cwd : Str) (getwd2 : Option Str) (lines : List Str),
        scanLines homeDir2 cwd getwd2 (lines.filter isCdLine) =
            scanLines homeDir2 cwd getwd2 lines ∧
          orderedPaths homeDir2 cwd getwd2 (lines.filter isCdLine) =
            orderedPaths homeDir2 cwd getwd2 lines) ∧
      isCdLine "ls -la".toList = false ∧
      isCdLine "git commit -m \"cd into trouble\"".toList = false := by
  refine ⟨loopBody_other homeDir getwd st line h, ?_, ?_, ?_⟩
  · intro homeDir2 cwd getwd2 lines
    have h2 : scanLines homeDir2 cwd getwd2 (lines.filter isCdLine) =
        scanLines homeDir2 cwd getwd2 lines := by
      simp only [scanLines, ← List.filter_reverse]
      exact foldl_loopBody_filter homeDir2 getwd2 lines.reverse _
    exact ⟨h2, by simp only [orderedPaths, h2]⟩
  · decide
  · decide

/-- Witness of `non_cd_lines_ignored`, at the line `ls -la` in a scan that
holds one candidate. -/
theorem non_cd_lines_ignored_witness :
    isCdLine "ls -la".toList = false ∧
      loopBody "/home/u".toList none
          { uniquePaths := ["/a".toList], orderedPaths := ["/a".toList], cwd := "/a".toList }
          "ls -la".toList =
        { uniquePaths := ["/a".toList], orderedPaths := ["/a".toList], cwd := "/a".toList } :=
  ⟨by decide,
    (non_cd_lines_ignored "/home/u".toList none
      { uniquePaths := ["/a".toList], orderedPaths := ["/a".toList], cwd := "/a".toList }
      "ls -la".toList (by decide)).1⟩

/-! ## Resolution of the target -/

theorem joinSep_snoc_b_ne (l : List Str) : joinSep (l ++ [['b']]) ≠ ['a'] := by
  cases l with
  | nil => decide
  | cons x l2 =>
    rw [List.cons_append, joinSep_cons_of_ne_nil x _ (by simp)]
    cases x with
    | nil =>
      intro h
      have h2 := (List.cons.inj h).1
      exact absurd h2 (by decide)
    | cons c cs =>
      intro h
      have h2 := (List.cons.inj h).2
      simp at h2

theorem clean_dotdot_b_ne (wd : Str) (h : IsAbs wd = true) :
    Clean (wd ++ '/' :: "../b".toList) ≠ "/a".toList := by
  obtain ⟨w, hw⟩ := (isAbs_iff wd).1 h
  subst hw
  rw [List.cons_append, clean_rooted, ← List.cons_append, splitSep_append_sep, List.foldl_append]
  have hsp : splitSep "../b".toList = [dotdotElem, ['b']] := by decide
  rw [hsp, List.foldl_cons, List.foldl_cons, List.foldl_nil,
    cleanStep_name true _ ['b'] (by decide) (by decide) (by decide)]
  simp only [List.reverse_cons]
  intro hc
  exact joinSep_snoc_b_ne _ (List.cons.inj hc).2

theorem resolvePath_slash_a (homeDir cwd : Str) (getwd : Option Str) :
    resolvePath homeDir cwd getwd (TrimSpace ("cd /a".toList.drop 3)) = some "/a".toList :=
  resolvePath_abs homeDir cwd getwd "/a".toList (by decide)

theorem orderedPaths_historyAB (homeDir wd : Str) (getwd : Option Str) :
    orderedPaths homeDir wd getwd historyAB =
      match resolvePath homeDir wd getwd "../b".toList with
      | none => ["/a".toList]
      | some p => if p = "/a".toList then [p] else [p, "/a".toList] := by
  have hcd1 : isCdLine "cd ../b".toList = true := by decide
  have hcd2 : isCdLine "cd /a".toList = true := by decide
  have ht1 : TrimSpace ("cd ../b".toList.drop 3) = "../b".toList := by decide
  have hfold : orderedPaths homeDir wd getwd historyAB =
      (loopBody homeDir getwd
        (loopBody homeDir getwd { uniquePaths := [], orderedPaths := [], cwd := wd }
          "cd ../b".toList) "cd /a".toList).orderedPaths := rfl
  rw [hfold]
  cases hres : resolvePath homeDir wd getwd "../b".toList with
  | none =>
    have h1 : loopBody homeDir getwd { uniquePaths := [], orderedPaths := [], cwd := wd }
        "cd ../b".toList = { uniquePaths := [], orderedPaths := [], cwd := wd } :=
      loopBody_failed homeDir getwd _ _ (by rw [ht1]; exact hres)
    have h2 : loopBody homeDir getwd { uniquePaths := [], orderedPaths := [], cwd := wd }
        "cd /a".toList =
        { uniquePaths := ["/a".toList], orderedPaths := [] ++ ["/a".toList],
          cwd := "/a".toList } :=
      loopBody_fresh homeDir getwd _ _ "/a".toList (by simp) hcd2
        (resolvePath_slash_a homeDir _ getwd) (List.not_mem_nil _)
    rw [h1, h2]
    rfl
  | some p =>
    have h1 : loopBody homeDir getwd { uniquePaths := [], orderedPaths := [], cwd := wd }
        "cd ../b".toList = { uniquePaths := [p], orderedPaths := [] ++ [p], cwd := p } :=
      loopBody_fresh homeDir getwd _ _ p (by simp) hcd1 (by rw [ht1]; exact hres)
        (List.not_mem_nil _)
    rw [h1]
    by_cases hp : p = "/a".toList
    · have h2 : loopBody homeDir getwd { uniquePaths := [p], orderedPaths := [] ++ [p], cwd := p }
          "cd /a".toList = { uniquePaths := [p], orderedPaths := [] ++ [p], cwd := "/a".toList } :=
        loopBody_seen homeDir getwd _ _ "/a".toList (by simp) hcd2
          (resolvePath_slash_a homeDir _ getwd) (by rw [hp]; exact List.mem_singleton_self _)
      rw [h2]
      show [] ++ [p] = if p = "/a".toList then [p] else [p, "/a".toList]
      rw [if_pos hp]
      rfl
    · have h2 : loopBody homeDir getwd { uniquePaths := [p], orderedPaths := [] ++ [p], cwd := p }
          "cd /a".toList =
          { uniquePaths := "/a".toList :: [p], orderedPaths := ([] ++ [p]) ++ ["/a".toList],
            cwd := "/a".toList } :=
        loopBody_fresh homeDir getwd _ _ "/a".toList (by simp) hcd2
          (resolvePath_slash_a homeDir _ getwd)
          (fun h => hp (List.mem_singleton.1 h).symm)
      rw [h2]
      show ([] ++ [p]) ++ ["/a".toList] = if p = "/a".toList then [p] else [p, "/a".toList]
      rw [if_neg hp]
      rfl

/-- C5, counterexample: with the working directory `/x/y` the history
`cd /a`, `cd ../b` gives the candidates `/x/b` and `/a`; `/b` is not among
them, the relative target was resolved against `/x/y` and not against `/a`. -/
theorem historyAB_not_slash_b :
    orderedPaths "/home/u".toList "/x/y".toList none historyAB = ["/x/b".toList, "/a".toList] ∧
      "/b".toList ∉ orderedPaths "/home/u".toList "/x/y".toList none historyAB := by
  decide

/-- C5, as amended: for the history `cd /a`, `cd ../b` the scan reaches
`cd ../b` first and resolves `../b` against the starting working directory,
whatever it is: the candidate for that entry is that resolved path, followed
by `/a`.  For an absolute starting directory `wd` it is the cleaned path
`wd/../b`, which is `/b` for `/start` and `/x/b` for `/x/y`. -/
theorem historyAB_resolved_against_start (homeDir wd : Str) (getwd : Option Str)
    (h : IsAbs wd = true) :
    orderedPaths homeDir wd getwd historyAB =
        [Clean (wd ++ '/' :: "../b".toList), "/a".toList] ∧
      (∀ (homeDir2 wd2 : Str) (getwd2 : Option Str),
        orderedPaths homeDir2 wd2 getwd2 historyAB =
          match resolvePath homeDir2 wd2 getwd2 "../b".toList with
          | none => ["/a".toList]
          | some p => if p = "/a".toList then [p] else [p, "/a".toList]) ∧
      orderedPaths homeDir "/start".toList getwd historyAB = ["/b".toList, "/a".toList] ∧
      orderedPaths homeDir "/x/y".toList getwd historyAB = ["/x/b".toList, "/a".toList] := by
  have key : ∀ w : Str, IsAbs w = true →
      orderedPaths homeDir w getwd historyAB =
        [Clean (w ++ '/' :: "../b".toList), "/a".toList] := by
    intro w hw
    rw [orderedPaths_historyAB,
      resolvePath_rel homeDir w getwd "../b".toList (by decide) (by decide) hw]
    simp only [clean_dotdot_b_ne w hw, if_false]
  refine ⟨key wd h, fun homeDir2 wd2 getwd2 => orderedPaths_historyAB homeDir2 wd2 getwd2, ?_, ?_⟩
  · rw [key "/start".toList (by decide)]
    decide
  · rw [key "/x/y".toList (by decide)]
    decide

/-- Witness of `historyAB_resolved_against_start`, at the working directory
`/x/y`. -/
theorem historyAB_resolved_against_start_witness :
    IsAbs "/x/y".toList = true ∧
      orderedPaths "/home/u".toList "/x/y".toList none historyAB =
        [Clean ("/x/y".toList ++ '/' :: "../b".toList), "/a".toList] :=
  ⟨by decide,
    (historyAB_resolved_against_start "/home/u".toList "/x/y".toList none (by decide)).1⟩

/-- C6, counterexample: with the relative home directory `rel` the target
`~/proj` does not resolve to the home directory joined with `/proj`, which
is `rel/proj`: `filepath.Abs` puts the working directory of the process in
front (`/w/rel/proj`), and fails when `os.Getwd` fails. -/
theorem tilde_relative_home :
    resolvePath "rel".toList "/cwd".toList (some "/w".toList) "~/proj".toList =
        some "/w/rel/proj".toList ∧
      resolvePath "rel".toList "/cwd".toList none "~/proj".toList = none ∧
      Join "rel".toList ("~/proj".toList.drop 1) = "rel/proj".toList ∧
      ¬ (∀ (homeDir cwd : Str) (getwd : Option Str) (t : Str), HasPrefix t ['~'] = true →
          resolvePath homeDir cwd getwd t = some (Join homeDir (t.drop 1))) := by
  refine ⟨by decide, by decide, by decide, ?_⟩
  intro hall
  have h := hall "rel".toList "/cwd".toList none "~/proj".toList (by decide)
  exact absurd h (by decide)

/-- C6, as amended: when the home directory is an absolute path, a target
that begins with `~` resolves to the home directory joined with everything
after the `~` (`filepath.Join` cleans the result); for every home directory
the resolved path is the same for all simulated working directories; and
`cd ~/proj` with home `/home/u` resolves to `/home/u/proj`. -/
theorem tilde_resolution (homeDir cwd : Str) (getwd : Option Str) (t : Str)
    (ht : HasPrefix t ['~'] = true) (hh : IsAbs homeDir = true) :
    resolvePath homeDir cwd getwd t = some (Join homeDir (t.drop 1)) ∧
      (∀ (homeDir2 cwd1 cwd2 : Str) (getwd2 : Option Str),
        resolvePath homeDir2 cwd1 getwd2 t = resolvePath homeDir2 cwd2 getwd2 t) ∧
      (∀ (cwd3 : Str) (getwd3 : Option Str),
        resolvePath "/home/u".toList cwd3 getwd3 (TrimSpace ("cd ~/proj".toList.drop 3)) =
          some "/home/u/proj".toList) := by
  have key : ∀ (hd c : Str) (g : Option Str) (u : Str), HasPrefix u ['~'] = true →
      IsAbs hd = true → resolvePath hd c g u = some (Join hd (u.drop 1)) := by
    intro hd c g u hu hhd
    obtain ⟨hj, hja⟩ := join_of_isAbs hd (u.drop 1) hhd
    rw [resolvePath_tilde hd c g u hu, hj, clean_idem]
    have habs : IsAbs (hd ++ '/' :: u.drop 1) = true := by
      rw [← isAbs_clean, ← hj]; exact hja
    exact abs_clean_of_isAbs g _ habs
  refine ⟨key homeDir cwd getwd t ht hh, ?_, ?_⟩
  · intro homeDir2 cwd1 cwd2 getwd2
    rw [resolvePath_tilde homeDir2 cwd1 getwd2 t ht, resolvePath_tilde homeDir2 cwd2 getwd2 t ht]
  · intro cwd3 getwd3
    have ht3 : TrimSpace ("cd ~/proj".toList.drop 3) = "~/proj".toList := by decide
    rw [ht3, key "/home/u".toList cwd3 getwd3 "~/proj".toList (by decide) (by decide)]
    decide

/-- Witness of `tilde_resolution`, at home `/home/u` and target `~/proj`. -/
theorem tilde_resolution_witness :
    HasPrefix "~/proj".toList ['~'] = true ∧ IsAbs "/home/u".toList = true ∧
      resolvePath "/home/u".toList "/cwd".toList none "~/proj".toList =
        some (Join "/home/u".toList ("~/proj".toList.drop 1)) :=
  ⟨by decide, by decide,
    (tilde_resolution "/home/u".toList "/cwd".toList none "~/proj".toList
      (by decide) (by decide)).1⟩

/-- C7: for every simulated working directory and every home directory, a
target that is an absolute path resolves to the cleaned form of that same
path, the same for all working directories and home directories; `cd /etc`
resolves to `/etc` and yields the candidate `/etc`. -/
theorem absolute_resolution (homeDir cwd : Str) (getwd : Option Str) (t : Str)
    (ht : IsAbs t = true) :
    resolvePath homeDir cwd getwd t = some (Clean t) ∧
      (∀ (homeDir2 cwd2 : Str) (getwd2 : Option Str),
        resolvePath homeDir2 cwd2 getwd2 t = resolvePath homeDir cwd getwd t) ∧
      resolvePath homeDir cwd getwd (TrimSpace ("cd /etc".toList.drop 3)) = some "/etc".toList ∧
      orderedPaths homeDir cwd getwd ["cd /etc".toList] = ["/etc".toList] := by
  refine ⟨resolvePath_abs homeDir cwd getwd t ht, ?_, ?_, ?_⟩
  · intro homeDir2 cwd2 getwd2
    rw [resolvePath_abs homeDir2 cwd2 getwd2 t ht, resolvePath_abs homeDir cwd getwd t ht]
  · exact resolvePath_abs homeDir cwd getwd "/etc".toList (by decide)
  · rfl

/-- Witness of `absolute_resolution`, at the target `/usr//local/../bin/`. -/
theorem absolute_resolution_witness :
    IsAbs "/usr//local/../bin/".toList = true ∧
      resolvePath "/home/u".toList "/cwd".toList none "/usr//local/../bin/".toList =
        some (Clean "/usr//local/../bin/".toList) :=
  ⟨by decide,
    (absolute_resolution "/home/u".toList "/cwd".toList none "/usr//local/../bin/".toList
      (by decide)).1⟩

/-! ## The selection state machine -/

theorem update_cursorOk (m : model) (msg : Msg) (h : CursorOk m) :
    ∃ m1 c, Update m msg = some (m1, c) ∧ m1.choices = m.choices ∧ CursorOk m1 := by
  obtain ⟨h0, h1⟩ := h
  cases msg with
  | other => exact ⟨m, Cmd.nil, rfl, rfl, h0, h1⟩
  | key name =>
    unfold Update
    simp only
    split_ifs with hq hu hup hd hdown he
    · exact ⟨m, Cmd.quit, rfl, rfl, h0, h1⟩
    · refine ⟨{ m with cursor := m.cursor - 1 }, Cmd.nil, rfl, rfl, ?_, ?_⟩
      · show 0 ≤ m.cursor - 1
        omega
      · show m.cursor - 1 < (m.choices.length : Int)
        omega
    · exact ⟨m, Cmd.nil, rfl, rfl, h0, h1⟩
    · refine ⟨{ m with cursor := m.cursor + 1 }, Cmd.nil, rfl, rfl, ?_, ?_⟩
      · show 0 ≤ m.cursor + 1
        omega
      · show m.cursor + 1 < (m.choices.length : Int)
        omega
    · exact ⟨m, Cmd.nil, rfl, rfl, h0, h1⟩
    · have hlt : m.cursor.toNat < m.choices.length := by omega
      rw [List.getElem?_eq_getElem hlt]
      exact ⟨{ m with selected := m.choices[m.cursor.toNat] }, Cmd.quit, rfl, rfl, h0, h1⟩
    · exact ⟨m, Cmd.nil, rfl, rfl, h0, h1⟩

theorem runUpdates_cursorOk (msgs : List Msg) :
    ∀ m : model, CursorOk m →
      ∃ m1, runUpdates m msgs = some m1 ∧ m1.choices = m.choices ∧ CursorOk m1 := by
  induction msgs with
  | nil => intro m h; exact ⟨m, rfl, rfl, h⟩
  | cons msg rest ih =>
    intro m h
    obtain ⟨m1, c, hu, hc, hok⟩ := update_cursorOk m msg h
    obtain ⟨m2, hr, hc2, hok2⟩ := ih m1 hok
    refine ⟨m2, ?_, hc2.trans hc, hok2⟩
    simp only [runUpdates, hu]
    exact hr

/-- C10: for every non-empty candidate list and every finite sequence of
messages, applying `Update` message by message from `initialModel` never
panics and ends in a model over the same candidates whose cursor satisfies
`0 ≤ cursor < len(choices)`; `up` (or `k`) at cursor 0 and `down` (or `j`) at
the last index return the model unchanged. -/
theorem cursor_in_range (paths : List Str) (msgs : List Msg) (h : paths ≠ []) :
    (∃ m : model, runUpdates (initialModel paths) msgs = some m ∧ m.choices = paths ∧
        0 ≤ m.cursor ∧ m.cursor < (paths.length : Int)) ∧
      (∀ m : model, m.cursor = 0 →
        Update m (Msg.key "up") = some (m, Cmd.nil) ∧
          Update m (Msg.key "k") = some (m, Cmd.nil)) ∧
      (∀ m : model, m.cursor = (m.choices.length : Int) - 1 →
        Update m (Msg.key "down") = some (m, Cmd.nil) ∧
          Update m (Msg.key "j") = some (m, Cmd.nil)) := by
  refine ⟨?_, ?_, ?_⟩
  · have hinit : CursorOk (initialModel paths) := by
      refine ⟨le_refl _, ?_⟩
      show (0 : Int) < (paths.length : Int)
      have hpos : 0 < paths.length := List.length_pos.2 h
      omega
    obtain ⟨m, hr, hc, hok⟩ := runUpdates_cursorOk msgs (initialModel paths) hinit
    have hc2 : m.choices = paths := hc
    refine ⟨m, hr, hc2, hok.1, ?_⟩
    rw [← hc2]
    exact hok.2
  · intro m hm
    refine ⟨?_, ?_⟩
    · simp [Update, hm]
    · simp [Update, hm]
  · intro m hm
    refine ⟨?_, ?_⟩
    · simp [Update, hm]
    · simp [Update, hm]

/-- Witness of `cursor_in_range`: three candidates and the keys `down`,
`down`, `down`, `up`, `enter`. -/
theorem cursor_in_range_witness :
    ["/a".toList, "/b".toList, "/c".toList] ≠ [] ∧
      ∃ m : model,
        runUpdates (initialModel ["/a".toList, "/b".toList, "/c".toList])
            [Msg.key "down", Msg.key "down", Msg.key "down", Msg.key "up", Msg.key "enter"] =
          some m ∧
        m.choices = ["/a".toList, "/b".toList, "/c".toList] ∧ 0 ≤ m.cursor ∧
        m.cursor < (["/a".toList, "/b".toList, "/c".toList].length : Int) :=
  ⟨by decide,
    (cursor_in_range ["/a".toList, "/b".toList, "/c".toList]
      [Msg.key "down", Msg.key "down", Msg.key "down", Msg.key "up", Msg.key "enter"]
      (by decide)).1⟩

/-! ## The selection state machine: confirm, quit and other input -/

theorem update_down (m : model) (msg : Msg) (h : isDownKey msg = true) :
    Update m msg =
      some ({ m with cursor := if m.cursor < (m.choices.length : Int) - 1 then m.cursor + 1
                               else m.cursor }, Cmd.nil) := by
  simp only [isDownKey, Bool.decide_or, Bool.or_eq_true, decide_eq_true_eq] at h
  rcases h with h | h <;> subst h <;> simp only [Update] <;> split_ifs <;> first | rfl | simp_all

theorem update_up (m : model) (msg : Msg) (h : msg = Msg.key "up" ∨ msg = Msg.key "k") :
    Update m msg =
      some ({ m with cursor := if m.cursor > 0 then m.cursor - 1 else m.cursor }, Cmd.nil) := by
  rcases h with h | h <;> subst h <;> simp only [Update] <;> split_ifs <;> first | rfl | simp_all

theorem update_nav (m : model) (msg : Msg) (h : isNavKey msg = true) :
    ∃ m1, Update m msg = some (m1, Cmd.nil) ∧ m1.choices = m.choices ∧
      m1.selected = m.selected := by
  simp only [isNavKey, Bool.decide_or, Bool.or_eq_true, decide_eq_true_eq] at h
  rcases h with h | h | h | h
  · exact ⟨_, update_up m msg (Or.inl h), rfl, rfl⟩
  · exact ⟨_, update_up m msg (Or.inr h), rfl, rfl⟩
  · exact ⟨_, update_down m msg (by simp [isDownKey, h]), rfl, rfl⟩
  · exact ⟨_, update_down m msg (by simp [isDownKey, h]), rfl, rfl⟩

theorem update_quit (m : model) :
    Update m (Msg.key "q") = some (m, Cmd.quit) ∧
      Update m (Msg.key "ctrl+c") = some (m, Cmd.quit) := by
  constructor <;> simp [Update]

theorem runUpdates_downs (msgs : List Msg) :
    ∀ m : model, (∀ x ∈ msgs, isDownKey x = true) → 0 ≤ m.cursor →
      m.cursor ≤ (m.choices.length : Int) - 1 →
      runUpdates m msgs =
        some { m with cursor := min (m.cursor + (msgs.length : Int))
                                  ((m.choices.length : Int) - 1) } := by
  induction msgs with
  | nil =>
    intro m _ _ hle
    simp only [runUpdates, List.length_nil, Int.Nat.cast_ofNat_Int, add_zero]
    rw [min_eq_left hle]
  | cons msg rest ih =>
    intro m hd h0 hle
    have hstep := update_down m msg (hd msg (List.mem_cons_self _ _))
    simp only [runUpdates, hstep]
    have hrest : ∀ x ∈ rest, isDownKey x = true := fun x hx => hd x (List.mem_cons_of_mem _ hx)
    by_cases hlt : m.cursor < (m.choices.length : Int) - 1
    · simp only [hlt, if_true]
      rw [ih { m with cursor := m.cursor + 1 } hrest (by show 0 ≤ m.cursor + 1; omega)
        (by show m.cursor + 1 ≤ (m.choices.length : Int) - 1; omega)]
      simp only [List.length_cons, Nat.cast_add, Nat.cast_one]
      have e : m.cursor + 1 + (rest.length : Int) = m.cursor + ((rest.length : Int) + 1) := by omega
      rw [e]
    · simp only [hlt, if_false]
      rw [ih m hrest h0 hle]
      have e1 : min (m.cursor + (rest.length : Int)) ((m.choices.length : Int) - 1) =
          (m.choices.length : Int) - 1 := by
        apply min_eq_right; omega
      have e2 : min (m.cursor + ((rest.length + 1 : Nat) : Int)) ((m.choices.length : Int) - 1) =
          (m.choices.length : Int) - 1 := by
        apply min_eq_right; omega
      simp only [List.length_cons]
      rw [e1, e2]

theorem update_enter (m : model) (i : Nat) (c : Str) (hcur : m.cursor = (i : Int))
    (hget : m.choices[i]? = some c) :
    Update m (Msg.key "enter") = some ({ m with selected := c }, Cmd.quit) := by
  simp [Update, hcur, hget]

theorem runUpdates_append (a b : List Msg) :
    ∀ m : model, runUpdates m (a ++ b) = (runUpdates m a).bind (fun m1 => runUpdates m1 b) := by
  induction a with
  | nil => intro m; rfl
  | cons x rest ih =>
    intro m
    simp only [List.cons_append, runUpdates]
    cases hu : Update m x with
    | none => rfl
    | some r => exact ih r.1

/-- C11: from `initialModel` over a non-empty candidate list, `k` presses of
`down` (or `j`) followed by `enter` record as the selection the candidate at
index `min k (n - 1)`, an element of the list, and return the command
`tea.Quit`; with 3 candidates two presses of `down` and `enter` select the
candidate at index 2. -/
theorem confirm_after_downs (paths : List Str) (msgs : List Msg) (h : paths ≠ [])
    (hd : ∀ x ∈ msgs, isDownKey x = true) :
    (∃ (m : model) (sel : Str),
        runUpdates (initialModel paths) msgs = some m ∧
        m.cursor = ((min msgs.length (paths.length - 1) : Nat) : Int) ∧
        paths[min msgs.length (paths.length - 1)]? = some sel ∧ sel ∈ paths ∧
        Update m (Msg.key "enter") = some ({ m with selected := sel }, Cmd.quit) ∧
        runUpdates (initialModel paths) (msgs ++ [Msg.key "enter"]) =
          some { m with selected := sel }) ∧
      (Update { choices := ["/a".toList, "/b".toList, "/c".toList], cursor := 2, selected := [] }
          (Msg.key "enter") =
        some ({ choices := ["/a".toList, "/b".toList, "/c".toList], cursor := 2,
                selected := "/c".toList }, Cmd.quit) ∧
       runUpdates (initialModel ["/a".toList, "/b".toList, "/c".toList])
          [Msg.key "down", Msg.key "down"] =
        some { choices := ["/a".toList, "/b".toList, "/c".toList], cursor := 2,
               selected := [] }) := by
  refine ⟨?_, by decide, by decide⟩
  have hpos : 0 < paths.length := List.length_pos.2 h
  have hrun := runUpdates_downs msgs (initialModel paths) hd (le_refl _)
    (by show (0 : Int) ≤ (paths.length : Int) - 1; omega)
  have hidx : min msgs.length (paths.length - 1) < paths.length := by
    have := Nat.min_le_right msgs.length (paths.length - 1)
    omega
  have hcur : min ((initialModel paths).cursor + (msgs.length : Int))
      (((initialModel paths).choices.length : Int) - 1) =
      ((min msgs.length (paths.length - 1) : Nat) : Int) := by
    show min ((0 : Int) + (msgs.length : Int)) ((paths.length : Int) - 1) = _
    omega
  rw [hcur] at hrun
  generalize min msgs.length (paths.length - 1) = i at hrun hidx
  have hget : paths[i]? = some (paths[i]) := List.getElem?_eq_getElem hidx
  have henter := update_enter { initialModel paths with cursor := (i : Int) } i paths[i] rfl hget
  refine ⟨_, paths[i], hrun, rfl, hget, List.getElem_mem _, henter, ?_⟩
  rw [runUpdates_append, hrun]
  simp only [Option.bind, runUpdates, henter]

/-- Witness of `confirm_after_downs`: two candidates and five presses of
`down` and `j`. -/
theorem confirm_after_downs_witness :
    ["/a".toList, "/b".toList] ≠ [] ∧
      (∀ x ∈ [Msg.key "down", Msg.key "j", Msg.key "j", Msg.key "down", Msg.key "down"],
        isDownKey x = true) ∧
      ∃ (m : model) (sel : Str),
        runUpdates (initialModel ["/a".toList, "/b".toList])
            [Msg.key "down", Msg.key "j", Msg.key "j", Msg.key "down", Msg.key "down"] =
          some m ∧
        m.cursor = ((min [Msg.key "down", Msg.key "j", Msg.key "j", Msg.key "down",
            Msg.key "down"].length (["/a".toList, "/b".toList].length - 1) : Nat) : Int) ∧
        ["/a".toList, "/b".toList][min [Msg.key "down", Msg.key "j", Msg.key "j",
            Msg.key "down", Msg.key "down"].length
              (["/a".toList, "/b".toList].length - 1)]? = some sel ∧
        sel ∈ ["/a".toList, "/b".toList] ∧
        Update m (Msg.key "enter") = some ({ m with selected := sel }, Cmd.quit) ∧
        runUpdates (initialModel ["/a".toList, "/b".toList])
            ([Msg.key "down", Msg.key "j", Msg.key "j", Msg.key "down", Msg.key "down"] ++
              [Msg.key "enter"]) =
          some { m with selected := sel } :=
  ⟨by decide, by decide,
    (confirm_after_downs ["/a".toList, "/b".toList]
      [Msg.key "down", Msg.key "j", Msg.key "j", Msg.key "down", Msg.key "down"]
      (by decide) (by decide)).1⟩

theorem runUpdates_nav (msgs : List Msg) :
    ∀ m : model, (∀ x ∈ msgs, isNavKey x = true) →
      ∃ m1, runUpdates m msgs = some m1 ∧ m1.choices = m.choices ∧
        m1.selected = m.selected := by
  induction msgs with
  | nil => intro m _; exact ⟨m, rfl, rfl, rfl⟩
  | cons msg rest ih =>
    intro m hn
    obtain ⟨m1, hu, hc, hs⟩ := update_nav m msg (hn msg (List.mem_cons_self _ _))
    obtain ⟨m2, hr, hc2, hs2⟩ := ih m1 (fun x hx => hn x (List.mem_cons_of_mem _ hx))
    refine ⟨m2, ?_, hc2.trans hc, hs2.trans hs⟩
    simp only [runUpdates, hu]
    exact hr

/-- C12: for every candidate list and every sequence of the navigation keys
`up`, `k`, `down`, `j` applied from `initialModel`, the keys `q` and `ctrl+c`
return the command `tea.Quit` and the model as it is, whose field `selected`
is still empty, wherever the cursor stands. -/
theorem quit_records_nothing (paths : List Str) (msgs : List Msg)
    (hn : ∀ x ∈ msgs, isNavKey x = true) :
    ∃ m : model, runUpdates (initialModel paths) msgs = some m ∧ m.choices = paths ∧
      m.selected = [] ∧
      Update m (Msg.key "q") = some (m, Cmd.quit) ∧
      Update m (Msg.key "ctrl+c") = some (m, Cmd.quit) ∧
      runUpdates (initialModel paths) (msgs ++ [Msg.key "q"]) = some m ∧
      runUpdates (initialModel paths) (msgs ++ [Msg.key "ctrl+c"]) = some m := by
  obtain ⟨m, hr, hc, hs⟩ := runUpdates_nav msgs (initialModel paths) hn
  refine ⟨m, hr, hc, hs, (update_quit m).1, (update_quit m).2, ?_, ?_⟩
  · rw [runUpdates_append, hr]
    simp only [Option.bind, runUpdates, (update_quit m).1]
  · rw [runUpdates_append, hr]
    simp only [Option.bind, runUpdates, (update_quit m).2]

/-- Witness of `quit_records_nothing`: three candidates and the keys `down`,
`j`, `up`, `k`, `down`. -/
theorem quit_records_nothing_witness :
    (∀ x ∈ [Msg.key "down", Msg.key "j", Msg.key "up", Msg.key "k", Msg.key "down"],
        isNavKey x = true) ∧
      ∃ m : model,
        runUpdates (initialModel ["/a".toList, "/b".toList, "/c".toList])
            [Msg.key "down", Msg.key "j", Msg.key "up", Msg.key "k", Msg.key "down"] = some m ∧
        m.choices = ["/a".toList, "/b".toList, "/c".toList] ∧ m.selected = [] ∧
        Update m (Msg.key "q") = some (m, Cmd.quit) ∧
        Update m (Msg.key "ctrl+c") = some (m, Cmd.quit) ∧
        runUpdates (initialModel ["/a".toList, "/b".toList, "/c".toList])
            ([Msg.key "down", Msg.key "j", Msg.key "up", Msg.key "k", Msg.key "down"] ++
              [Msg.key "q"]) = some m ∧
        runUpdates (initialModel ["/a".toList, "/b".toList, "/c".toList])
            ([Msg.key "down", Msg.key "j", Msg.key "up", Msg.key "k", Msg.key "down"] ++
              [Msg.key "ctrl+c"]) = some m :=
  ⟨by decide,
    quit_records_nothing ["/a".toList, "/b".toList, "/c".toList]
      [Msg.key "down", Msg.key "j", Msg.key "up", Msg.key "k", Msg.key "down"] (by decide)⟩

/-- C13: with an empty candidate list (a history without directory-change
lines gives one) the key `enter` makes `Update` evaluate `m.choices[0]` on an
empty slice: the call panics instead of returning the model unchanged, while
`up` and `down` on the same model are guarded and return it unchanged. -/
theorem enter_on_empty_panics :
    orderedPaths "/home/u".toList "/start".toList none ["ls -la".toList] = [] ∧
      Update (initialModel []) (Msg.key "enter") = none ∧
      Update (initialModel []) (Msg.key "enter") ≠ some (initialModel [], Cmd.nil) ∧
      Update (initialModel []) (Msg.key "down") = some (initialModel [], Cmd.nil) ∧
      Update (initialModel []) (Msg.key "up") = some (initialModel [], Cmd.nil) := by
  decide

/-- C14: for every model, `Update` applied to a message that is none of the
keys `ctrl+c`, `q`, `up`, `k`, `down`, `j`, `enter` (another key, or a message
that is not a key) returns the model with `choices`, `cursor` and `selected`
as they were, and the command `nil`. -/
theorem other_input_ignored (m : model) (msg : Msg) (h : isHandledKey msg = false) :
    Update m msg = some (m, Cmd.nil) := by
  cases msg with
  | other => rfl
  | key name =>
    simp only [isHandledKey, Bool.decide_or, Bool.or_eq_false_iff, decide_eq_false_iff_not,
      Msg.key.injEq] at h
    obtain ⟨h1, h2, h3, h4, h5, h6, h7⟩ := h
    simp [Update, h1, h2, h3, h4, h5, h6, h7]

/-- Witness of `other_input_ignored`: the key `x` and a message that is not
a key. -/
theorem other_input_ignored_witness :
    isHandledKey (Msg.key "x") = false ∧ isHandledKey Msg.other = false ∧
      Update { choices := ["/a".toList], cursor := 0, selected := [] } (Msg.key "x") =
        some ({ choices := ["/a".toList], cursor := 0, selected := [] }, Cmd.nil) ∧
      Update { choices := ["/a".toList], cursor := 0, selected := [] } Msg.other =
        some ({ choices := ["/a".toList], cursor := 0, selected := [] }, Cmd.nil) :=
  ⟨by decide, by decide,
    other_input_ignored { choices := ["/a".toList], cursor := 0, selected := [] } (Msg.key "x")
      (by decide),
    other_input_ignored { choices := ["/a".toList], cursor := 0, selected := [] } Msg.other
      (by decide)⟩

/-! ## The method `View` -/

theorem sprintfLine_eq (mcursor : Int) (i : Nat) (choice : Str) :
    sprintfLine (if mcursor = (i : Int) then ['>'] else [' ']) choice =
      candidateLine mcursor i choice := by
  unfold sprintfLine candidateLine
  split_ifs <;> rfl

theorem viewLoop_eq (mcursor : Int) (choices : List Str) :
    ∀ (i : Nat) (s : Str),
      viewLoop mcursor i choices s = s ++ concatLines (candidateLines mcursor i choices) := by
  induction choices with
  | nil => intro i s; simp [viewLoop, candidateLines, concatLines]
  | cons c rest ih =>
    intro i s
    simp only [viewLoop, candidateLines, concatLines]
    rw [ih (i + 1), sprintfLine_eq, List.append_assoc]

theorem candidateLines_length (mcursor : Int) (choices : List Str) :
    ∀ i : Nat, (candidateLines mcursor i choices).length = choices.length := by
  induction choices with
  | nil => intro i; rfl
  | cons c rest ih => intro i; simp only [candidateLines, List.length_cons, ih (i + 1)]

theorem candidateLines_getElem? (mcursor : Int) (choices : List Str) :
    ∀ i j : Nat, (candidateLines mcursor i choices)[j]? =
      (choices[j]?).map (candidateLine mcursor (i + j)) := by
  induction choices with
  | nil => intro i j; simp [candidateLines]
  | cons c rest ih =>
    intro i j
    cases j with
    | zero => simp [candidateLines]
    | succ j =>
      simp only [candidateLines, List.getElem?_cons_succ]
      rw [ih (i + 1) j]
      have e : i + 1 + j = i + (j + 1) := by omega
      rw [e]

/-- C15: for every candidate list and every cursor index within it, `View`
returns the header, then one line per candidate in the order of the list,
then the help text; the line at the cursor index is `> ` and the path, every
other line is two blanks and the path, so the line at the cursor index is the
only one marked; and the text is the same for all models with these choices
and this cursor. -/
theorem view_renders (m : model) (h : CursorOk m) :
    View m = viewHeader ++ concatLines (candidateLines m.cursor 0 m.choices) ++ viewHelp ∧
      (candidateLines m.cursor 0 m.choices).length = m.choices.length ∧
      (∀ (i : Nat) (hi : i < m.choices.length),
        (candidateLines m.cursor 0 m.choices)[i]? =
          some ((if i = m.cursor.toNat then ['>', ' '] else [' ', ' ']) ++
            m.choices[i] ++ ['\n'])) ∧
      (∀ (i : Nat) (hi : i < m.choices.length),
        (candidateLines m.cursor 0 m.choices)[i]? = some (['>', ' '] ++ m.choices[i] ++ ['\n']) ↔
          i = m.cursor.toNat) ∧
      (∃ i : Nat, i < m.choices.length ∧ i = m.cursor.toNat) ∧
      (∀ m2 : model, m2.choices = m.choices → m2.cursor = m.cursor → View m2 = View m) := by
  obtain ⟨h0, h1⟩ := h
  have hline : ∀ (i : Nat) (hi : i < m.choices.length),
      (candidateLines m.cursor 0 m.choices)[i]? =
        some ((if i = m.cursor.toNat then ['>', ' '] else [' ', ' ']) ++
          m.choices[i] ++ ['\n']) := by
    intro i hi
    rw [candidateLines_getElem?, List.getElem?_eq_getElem hi, Nat.zero_add]
    simp only [Option.map_some', candidateLine]
    have hiff : (m.cursor = (i : Int)) ↔ (i = m.cursor.toNat) := by omega
    by_cases hc : i = m.cursor.toNat
    · rw [if_pos hc, if_pos (hiff.2 hc)]
    · rw [if_neg hc, if_neg (fun hx => hc (hiff.1 hx))]
  refine ⟨?_, candidateLines_length _ _ _, hline, ?_, ⟨m.cursor.toNat, by omega, rfl⟩, ?_⟩
  · simp only [View]
    rw [viewLoop_eq]
  · intro i hi
    rw [hline i hi]
    by_cases hc : i = m.cursor.toNat
    · simp [hc]
    · simp only [if_neg hc, hc, iff_false]
      intro hx
      have hx2 := Option.some.inj hx
      simp at hx2
  · intro m2 hc hcur
    simp only [View, hc, hcur]

/-- Witness of `view_renders`: two candidates, the cursor on the second. -/
theorem view_renders_witness :
    CursorOk { choices := ["/a".toList, "/b".toList], cursor := 1, selected := [] } ∧
      View { choices := ["/a".toList, "/b".toList], cursor := 1, selected := [] } =
        "Which path do you want to select?\n\n  /a\n> /b\n\nPress enter to select, q to quit.\n".toList :=
  ⟨by unfold CursorOk; decide,
    ((view_renders { choices := ["/a".toList, "/b".toList], cursor := 1, selected := [] }
      (by unfold CursorOk; decide)).1).trans (by decide)⟩

/-! ## The end of `main` -/

/-- C16, counterexample: after the key `q` the field `selected` is empty,
and lines 169 to 185 still format the command text `cd `, set it as the input
of `pbcopy` and print the sentence about the clipboard (or log the hint and
the text when `pbcopy` fails). -/
theorem quit_still_copies :
    runUpdates (initialModel ["/a".toList]) [Msg.key "q"] = some (initialModel ["/a".toList]) ∧
      (initialModel ["/a".toList]).selected = [] ∧
      (mainTail [] false).pbcopyStdin = "cd ".toList ∧
      (mainTail [] false).printed =
        "The command 'cd ' has been copied to the clipboard.\n".toList ∧
      (mainTail [] true).logged =
        ["If you install pbcopy you can just paste".toList, "cd ".toList] ∧
      (mainTail [] false).pbcopyStdin ≠ [] ∧ (mainTail [] false).printed ≠ [] := by
  decide

/-- C16, as amended: lines 169 to 185 have no case for a missing selection.
For every value of the field `selected`, the chosen path or the empty string
left by quitting, they format `cd ` followed by that value and set it as the
input of `pbcopy`; then they print the sentence about the clipboard, or, when
`pbcopy` fails, log the hint and the command text. -/
theorem mainTail_always_formats (selectedPath : Str) :
    (mainTail selectedPath false).pbcopyStdin = "cd ".toList ++ selectedPath ∧
      (mainTail selectedPath true).pbcopyStdin = "cd ".toList ++ selectedPath ∧
      (mainTail selectedPath false).printed =
        "The command 'cd ".toList ++ selectedPath ++
          "' has been copied to the clipboard.\n".toList ∧
      (mainTail selectedPath false).logged = [] ∧
      (mainTail selectedPath true).printed = [] ∧
      (mainTail selectedPath true).logged =
        ["If you install pbcopy you can just paste".toList, "cd ".toList ++ selectedPath] :=
  ⟨rfl, rfl, rfl, rfl, rfl, rfl⟩

/-! ## `break` in place of `continue` -/

theorem loopBody_eq_lineBody (homeDir : Str) (getwd : Option Str) (st : Scan) (line : Str) :
    loopBody homeDir getwd st line =
      if st.uniquePaths.length > 10 then st else lineBody homeDir getwd st line := by
  unfold loopBody lineBody
  rfl

theorem loopBreak_eq_foldl (homeDir : Str) (getwd : Option Str) (ls : List Str) :
    ∀ st : Scan, loopBreak homeDir getwd st ls = ls.foldl (loopBody homeDir getwd) st := by
  induction ls with
  | nil => intro st; rfl
  | cons line rest ih =>
    intro st
    rw [List.foldl_cons, loopBreak]
    by_cases hcap : st.uniquePaths.length > 10
    · rw [if_pos hcap, loopBody_capped homeDir getwd st line hcap,
        foldl_loopBody_capped homeDir getwd rest st hcap]
    · rw [if_neg hcap, ih, loopBody_eq_lineBody, if_neg hcap]

/-- C17: for every history the scan as written, which skips the rest of
each round with `continue` once more than 10 paths are held and still visits
every line, produces the same candidate list (and the same final state) as
the variant that leaves the loop with `break` at that point. -/
theorem continue_eq_break (homeDir cwd : Str) (getwd : Option Str) (lines : List Str) :
    orderedPathsBreak homeDir cwd getwd lines = orderedPaths homeDir cwd getwd lines ∧
      loopBreak homeDir getwd { uniquePaths := [], orderedPaths := [], cwd := cwd }
          lines.reverse =
        scanLines homeDir cwd getwd lines := by
  have h := loopBreak_eq_foldl homeDir getwd lines.reverse
    { uniquePaths := [], orderedPaths := [], cwd := cwd }
  exact ⟨by simp only [orderedPathsBreak, orderedPaths, scanLines, h], h⟩

/-! ## The simulated working directory -/

theorem loopBody_resolved (homeDir : Str) (getwd : Option Str) (st : Scan) (line p : Str)
    (hcap : ¬ st.uniquePaths.length > 10) (hcd : isCdLine line = true)
    (h : resolvePath homeDir st.cwd getwd (TrimSpace (line.drop 3)) = some p) :
    loopBody homeDir getwd st line = { addPath st p with cwd := p } := by
  simp [loopBody, hcap, hcd, h]

theorem orderedPaths_historyXABA (homeDir cwd : Str) (getwd : Option Str) :
    orderedPaths homeDir cwd getwd historyXABA =
      ["/a".toList, "/b".toList, "/a/x".toList] := by
  have hrev : historyXABA.reverse =
      ["cd /a".toList, "cd /b".toList, "cd /a".toList, "cd x".toList] := by decide
  have h1 : loopBody homeDir getwd { uniquePaths := [], orderedPaths := [], cwd := cwd }
      "cd /a".toList =
      { uniquePaths := ["/a".toList], orderedPaths := ["/a".toList], cwd := "/a".toList } :=
    loopBody_fresh homeDir getwd _ _ "/a".toList (by simp) (by decide)
      (resolvePath_abs homeDir _ getwd "/a".toList (by decide)) (List.not_mem_nil _)
  have h2 : loopBody homeDir getwd
      { uniquePaths := ["/a".toList], orderedPaths := ["/a".toList], cwd := "/a".toList }
      "cd /b".toList =
      { uniquePaths := ["/b".toList, "/a".toList], orderedPaths := ["/a".toList, "/b".toList],
        cwd := "/b".toList } :=
    loopBody_fresh homeDir getwd _ _ "/b".toList (by simp) (by decide)
      (resolvePath_abs homeDir _ getwd "/b".toList (by decide)) (by decide)
  have h3 : loopBody homeDir getwd
      { uniquePaths := ["/b".toList, "/a".toList], orderedPaths := ["/a".toList, "/b".toList],
        cwd := "/b".toList } "cd /a".toList =
      { uniquePaths := ["/b".toList, "/a".toList], orderedPaths := ["/a".toList, "/b".toList],
        cwd := "/a".toList } :=
    loopBody_seen homeDir getwd _ _ "/a".toList (by simp) (by decide)
      (resolvePath_abs homeDir _ getwd "/a".toList (by decide)) (by decide)
  have h4 : loopBody homeDir getwd
      { uniquePaths := ["/b".toList, "/a".toList], orderedPaths := ["/a".toList, "/b".toList],
        cwd := "/a".toList } "cd x".toList =
      { uniquePaths := ["/a/x".toList, "/b".toList, "/a".toList],
        orderedPaths := ["/a".toList, "/b".toList, "/a/x".toList], cwd := "/a/x".toList } :=
    loopBody_fresh homeDir getwd _ _ "/a/x".toList (by simp) (by decide)
      (resolvePath_rel homeDir "/a".toList getwd "x".toList (by decide) (by decide) (by decide))
      (by decide)
  unfold orderedPaths scanLines
  rw [hrev]
  simp only [List.foldl_cons, List.foldl_nil]
  rw [h1, h2, h3, h4]

/-- C18: whenever the scan resolves a directory-change line, the simulated
working directory becomes the resolved path, also when that path was already
a candidate and nothing is added; so a repeated entry still decides against
which directory the next older relative target is resolved: the history
`cd x`, `cd /a`, `cd /b`, `cd /a` yields `/a`, `/b`, `/a/x`. -/
theorem cwd_follows_resolved (homeDir : Str) (getwd : Option Str) (st : Scan) (line p : Str)
    (hcap : ¬ st.uniquePaths.length > 10) (hcd : isCdLine line = true)
    (h : resolvePath homeDir st.cwd getwd (TrimSpace (line.drop 3)) = some p) :
    (loopBody homeDir getwd st line).cwd = p ∧
      (p ∈ st.uniquePaths →
        loopBody homeDir getwd st line = { st with cwd := p }) ∧
      (p ∉ st.uniquePaths →
        loopBody homeDir getwd st line =
          { uniquePaths := p :: st.uniquePaths, orderedPaths := st.orderedPaths ++ [p],
            cwd := p }) ∧
      (∀ (homeDir2 cwd2 : Str) (getwd2 : Option Str),
        orderedPaths homeDir2 cwd2 getwd2 historyXABA =
          ["/a".toList, "/b".toList, "/a/x".toList]) := by
  refine ⟨?_, ?_, ?_, ?_⟩
  · rw [loopBody_resolved homeDir getwd st line p hcap hcd h]
  · intro hin
    exact loopBody_seen homeDir getwd st line p hcap hcd h hin
  · intro hin
    exact loopBody_fresh homeDir getwd st line p hcap hcd h hin
  · intro homeDir2 cwd2 getwd2
    exact orderedPaths_historyXABA homeDir2 cwd2 getwd2

/-- Witness of `cwd_follows_resolved`: the line `cd /a` met while `/a` is
already a candidate and the simulated working directory is `/b`. -/
theorem cwd_follows_resolved_witness :
    ¬ ({ uniquePaths := ["/b".toList, "/a".toList], orderedPaths := ["/a".toList, "/b".toList],
          cwd := "/b".toList } : Scan).uniquePaths.length > 10 ∧
      isCdLine "cd /a".toList = true ∧
      resolvePath "/home/u".toList "/b".toList none (TrimSpace ("cd /a".toList.drop 3)) =
        some "/a".toList ∧
      (loopBody "/home/u".toList none
        { uniquePaths := ["/b".toList, "/a".toList], orderedPaths := ["/a".toList, "/b".toList],
          cwd := "/b".toList } "cd /a".toList).cwd = "/a".toList :=
  ⟨by decide, by decide, by decide,
    (cwd_follows_resolved "/home/u".toList none
      { uniquePaths := ["/b".toList, "/a".toList], orderedPaths := ["/a".toList, "/b".toList],
        cwd := "/b".toList } "cd /a".toList "/a".toList (by decide) (by decide) (by decide)).1⟩

/-! ## Absolute home and working directory -/

theorem resolvePath_of_isAbs (homeDir cwd : Str) (t : Str)
    (hh : IsAbs homeDir = true) (hc : IsAbs cwd = true) :
    ∃ p, IsAbs p = true ∧ ∀ g : Option Str, resolvePath homeDir cwd g t = some p := by
  by_cases ht : HasPrefix t ['~'] = true
  · obtain ⟨hj, hja⟩ := join_of_isAbs homeDir (t.drop 1) hh
    have habs : IsAbs (homeDir ++ '/' :: t.drop 1) = true := by
      rw [← isAbs_clean, ← hj]; exact hja
    refine ⟨Clean (homeDir ++ '/' :: t.drop 1), by rw [isAbs_clean]; exact habs, ?_⟩
    intro g
    rw [resolvePath_tilde homeDir cwd g t ht, hj, clean_idem]
    exact abs_clean_of_isAbs g _ habs
  · have ht2 : HasPrefix t ['~'] = false := by simpa using ht
    by_cases ha : IsAbs t = true
    · exact ⟨Clean t, by rw [isAbs_clean]; exact ha,
        fun g => resolvePath_abs homeDir cwd g t ha⟩
    · have ha2 : IsAbs t = false := by simpa using ha
      obtain ⟨hj, hja⟩ := join_of_isAbs cwd t hc
      have habs : IsAbs (cwd ++ '/' :: t) = true := by
        rw [← isAbs_clean, ← hj]; exact hja
      exact ⟨Clean (cwd ++ '/' :: t), by rw [isAbs_clean]; exact habs,
        fun g => resolvePath_rel homeDir cwd g t ht2 ha2 hc⟩

theorem absInv_loopBody (homeDir : Str) (getwd : Option Str) (st : Scan) (line : Str)
    (hh : IsAbs homeDir = true) (hst : AbsInv st) :
    AbsInv (loopBody homeDir getwd st line) ∧
      ∀ g : Option Str, loopBody homeDir g st line = loopBody homeDir getwd st line := by
  by_cases hcap : st.uniquePaths.length > 10
  · refine ⟨by rw [loopBody_capped homeDir getwd st line hcap]; exact hst, fun g => ?_⟩
    rw [loopBody_capped homeDir g st line hcap, loopBody_capped homeDir getwd st line hcap]
  by_cases hcd : isCdLine line = true
  swap
  · have hcd2 : isCdLine line = false := by simpa using hcd
    refine ⟨by rw [loopBody_other homeDir getwd st line hcd2]; exact hst, fun g => ?_⟩
    rw [loopBody_other homeDir g st line hcd2, loopBody_other homeDir getwd st line hcd2]
  obtain ⟨p, hp, hres⟩ := resolvePath_of_isAbs homeDir st.cwd (TrimSpace (line.drop 3))
    hh hst.1
  refine ⟨?_, fun g => ?_⟩
  · rw [loopBody_resolved homeDir getwd st line p hcap hcd (hres getwd)]
    refine ⟨hp, ?_⟩
    intro q hq
    have hq2 : q ∈ (addPath st p).orderedPaths := hq
    unfold addPath at hq2
    split_ifs at hq2
    · exact hst.2 q hq2
    · rcases List.mem_append.1 hq2 with h1 | h1
      · exact hst.2 q h1
      · rw [List.mem_singleton.1 h1]; exact hp
  · rw [loopBody_resolved homeDir g st line p hcap hcd (hres g),
      loopBody_resolved homeDir getwd st line p hcap hcd (hres getwd)]

theorem absInv_foldl (homeDir : Str) (getwd : Option Str) (hh : IsAbs homeDir = true)
    (ls : List Str) :
    ∀ st : Scan, AbsInv st →
      AbsInv (ls.foldl (loopBody homeDir getwd) st) ∧
        ∀ g : Option Str,
          ls.foldl (loopBody homeDir g) st = ls.foldl (loopBody homeDir getwd) st := by
  induction ls with
  | nil => intro st hst; exact ⟨hst, fun _ => rfl⟩
  | cons line rest ih =>
    intro st hst
    obtain ⟨h1, h2⟩ := absInv_loopBody homeDir getwd st line hh hst
    obtain ⟨h3, h4⟩ := ih _ h1
    refine ⟨h3, fun g => ?_⟩
    rw [List.foldl_cons, List.foldl_cons, h2 g]
    exact h4 g

theorem absInv_scanLines (homeDir cwd : Str) (getwd : Option Str) (lines : List Str)
    (hh : IsAbs homeDir = true) (hc : IsAbs cwd = true) :
    AbsInv (scanLines homeDir cwd getwd lines) ∧
      ∀ g : Option Str, scanLines homeDir cwd g lines = scanLines homeDir cwd getwd lines :=
  absInv_foldl homeDir getwd hh lines.reverse _ ⟨hc, fun _ hp => absurd hp (List.not_mem_nil _)⟩

/-- C19: when the home directory and the starting working directory are
absolute paths, then for every history the simulated working directory is
absolute after every step of the scan, every candidate is an absolute path,
every target met in any state of the scan resolves (the branch that logs and
skips is not taken), and the state of the scan and the candidate list are the
same whatever `os.Getwd` returns: they depend on the lines, the home
directory and the starting working directory only. -/
theorem absolute_inputs_stay_absolute (homeDir cwd : Str) (getwd : Option Str)
    (lines : List Str) (hh : IsAbs homeDir = true) (hc : IsAbs cwd = true) :
    (∀ k : Nat, IsAbs (scanLines homeDir cwd getwd (lines.drop k)).cwd = true) ∧
      (∀ p ∈ orderedPaths homeDir cwd getwd lines, IsAbs p = true) ∧
      (∀ (k : Nat) (t : Str),
        ∃ p, resolvePath homeDir (scanLines homeDir cwd getwd (lines.drop k)).cwd getwd t =
          some p ∧ IsAbs p = true) ∧
      (∀ g : Option Str,
        scanLines homeDir cwd g lines = scanLines homeDir cwd getwd lines ∧
        orderedPaths homeDir cwd g lines = orderedPaths homeDir cwd getwd lines) := by
  refine ⟨?_, ?_, ?_, ?_⟩
  · intro k
    exact (absInv_scanLines homeDir cwd getwd (lines.drop k) hh hc).1.1
  · exact (absInv_scanLines homeDir cwd getwd lines hh hc).1.2
  · intro k t
    obtain ⟨p, hp, hres⟩ := resolvePath_of_isAbs homeDir
      (scanLines homeDir cwd getwd (lines.drop k)).cwd t hh
      (absInv_scanLines homeDir cwd getwd (lines.drop k) hh hc).1.1
    exact ⟨p, hres getwd, hp⟩
  · intro g
    have h := (absInv_scanLines homeDir cwd getwd lines hh hc).2 g
    exact ⟨h, by simp only [orderedPaths, h]⟩

/-- Witness of `absolute_inputs_stay_absolute`: home `/home/u`, working
directory `/start` and a history with a relative target and a `~` target. -/
theorem absolute_inputs_stay_absolute_witness :
    IsAbs "/home/u".toList = true ∧ IsAbs "/start".toList = true ∧
      (∀ p ∈ orderedPaths "/home/u".toList "/start".toList none
          ["cd ~/x".toList, "cd ../y".toList, "cd z".toList], IsAbs p = true) ∧
      orderedPaths "/home/u".toList "/start".toList (some "/w".toList)
          ["cd ~/x".toList, "cd ../y".toList, "cd z".toList] =
        orderedPaths "/home/u".toList "/start".toList none
          ["cd ~/x".toList, "cd ../y".toList, "cd z".toList] :=
  ⟨by decide, by decide,
    (absolute_inputs_stay_absolute "/home/u".toList "/start".toList none
      ["cd ~/x".toList, "cd ../y".toList, "cd z".toList] (by decide) (by decide)).2.1,
    ((absolute_inputs_stay_absolute "/home/u".toList "/start".toList none
      ["cd ~/x".toList, "cd ../y".toList, "cd z".toList] (by decide) (by decide)).2.2.2
      (some "/w".toList)).2⟩

end GoHistory
